import Mathlib

/-!
# Verification of the FTIR stacked-plot pipeline

A shallow embedding of `ftir_stack_plot.py`: CSV loading with delimiter
fallback (`_read_csv_any` / `_clean`), minima detection on the inverted
signal (`scipy.signal.find_peaks` with a prominence threshold), the two
annotation modes (nearest-to-guess and top-N-by-depth), vertical offsets,
the overall run (configuration checks, per-file loading, annotation
accumulation) and the peak-summary serialization, together with theorems
settling the specified properties.

Numeric cells are modelled as rationals; Python `float(...)` parsing is
embedded as a decimal-numeral parser, and float serialization as exact
decimal printing, which agrees with the repr round-trip behaviour of
binary floats on the decimal values the pipeline produces.
-/

attribute [local semireducible] Rat.add Rat.sub Rat.mul Rat.inv

namespace Ftir

/-- Value of a little-endian list of base-10 digits. -/
def ofDigitsLE : List Nat → Nat
  | [] => 0
  | d :: t => d + 10 * ofDigitsLE t

/-- Fuelled little-endian base-10 digit extraction. -/
def natDigitsGo : Nat → Nat → List Nat
  | 0, _ => []
  | f + 1, n => if n = 0 then [] else n % 10 :: natDigitsGo f (n / 10)

/-- Little-endian base-10 digits of a natural number (empty for 0). -/
def natDigits (n : Nat) : List Nat :=
  natDigitsGo n n

theorem ofDigitsLE_natDigitsGo (f : Nat) : ∀ n, n ≤ f → ofDigitsLE (natDigitsGo f n) = n := by
  induction f with
  | zero =>
    intro n hn
    interval_cases n
    rfl
  | succ f ih =>
    intro n hn
    by_cases hz : n = 0
    · simp [natDigitsGo, hz, ofDigitsLE]
    · have hdiv : n / 10 ≤ f := by
        have h1 : n / 10 < n := Nat.div_lt_self (Nat.pos_of_ne_zero hz) (by norm_num)
        omega
      rw [natDigitsGo, if_neg hz, ofDigitsLE, ih _ hdiv]
      omega

theorem ofDigitsLE_natDigits (n : Nat) : ofDigitsLE (natDigits n) = n :=
  ofDigitsLE_natDigitsGo n n le_rfl

theorem natDigitsGo_lt_ten (f : Nat) : ∀ n, ∀ d ∈ natDigitsGo f n, d < 10 := by
  induction f with
  | zero => intro n d hd; simp [natDigitsGo] at hd
  | succ f ih =>
    intro n d hd
    by_cases hz : n = 0
    · simp [natDigitsGo, hz] at hd
    · rw [natDigitsGo, if_neg hz] at hd
      rcases List.mem_cons.mp hd with h | h
      · subst h; exact Nat.mod_lt _ (by norm_num)
      · exact ih _ _ h

theorem natDigits_lt_ten (n : Nat) : ∀ d ∈ natDigits n, d < 10 :=
  natDigitsGo_lt_ten n n

theorem ofDigitsLE_append (l1 l2 : List Nat) :
    ofDigitsLE (l1 ++ l2) = ofDigitsLE l1 + 10 ^ l1.length * ofDigitsLE l2 := by
  induction l1 with
  | nil => simp [ofDigitsLE]
  | cons d t ih => simp [ofDigitsLE, ih]; ring

theorem ofDigitsLE_replicate_zero (n : Nat) : ofDigitsLE (List.replicate n 0) = 0 := by
  induction n with
  | zero => rfl
  | succ n ih => simp [List.replicate, ofDigitsLE, ih]

/-- The character for a single decimal digit. -/
def digitChar10 (d : Nat) : Char := Char.ofNat (48 + d)

/-- The digit value of a character (inverse of `digitChar10` on digits). -/
def charDigit (c : Char) : Nat := c.toNat - 48

theorem charDigit_digitChar10 (d : Nat) (hd : d < 10) : charDigit (digitChar10 d) = d := by
  interval_cases d <;> decide

theorem digitChar10_facts (d : Nat) (hd : d < 10) :
    (digitChar10 d).isDigit = true ∧ digitChar10 d ≠ '.' ∧ digitChar10 d ≠ '-' ∧
      digitChar10 d ≠ '+' ∧ digitChar10 d ≠ ',' ∧ digitChar10 d ≠ '"' ∧ digitChar10 d ≠ '\n' := by
  interval_cases d <;> decide

/-- Separate an unsigned numeral at its decimal point, rejecting a second point. -/
def dotSplit : List Char → Option (List Char × List Char)
  | [] => some ([], [])
  | c :: t =>
    if c = '.' then (if '.' ∈ t then none else some ([], t))
    else (dotSplit t).map (fun p => (c :: p.1, p.2))

/-- Value of a big-endian list of digit characters. -/
def digitsVal (cs : List Char) : Nat := ofDigitsLE ((cs.map charDigit).reverse)

/-- Parse an unsigned decimal numeral: digits with at most one decimal point. -/
def parseUnsigned (cs : List Char) : Option ℚ :=
  (dotSplit cs).bind (fun p =>
    if p.1 ++ p.2 = [] then none
    else if (p.1 ++ p.2).all Char.isDigit then
      some ((digitsVal (p.1 ++ p.2) : ℚ) / (10 : ℚ) ^ p.2.length)
    else none)

/-- Embedding of Python `float(...)` on the decimal numerals this program
feeds it: optional sign, digits, at most one decimal point. -/
def parseNum (s : String) : Option ℚ :=
  if s.data.head? = some '-' then (parseUnsigned s.data.tail).map (fun v => -v)
  else if s.data.head? = some '+' then parseUnsigned s.data.tail
  else parseUnsigned s.data

/-- A rational with only 2 and 5 in its denominator: exactly the values
`parseNum` can produce, and the ones binary floats serialize exactly. -/
def DecimalRat (q : ℚ) : Prop := ∃ k, (q.den : ℕ) ∣ 10 ^ k

theorem denom_div_pow10 (n e : Nat) : (((n : ℚ) / (10 : ℚ) ^ e).den : ℕ) ∣ 10 ^ e := by
  have h1 : ((n : ℚ) / (10 : ℚ) ^ e) = Rat.divInt (n : ℤ) ((10 : ℤ) ^ e) := by
    rw [Rat.divInt_eq_div]
    push_cast
    ring
  have h2 := Rat.den_dvd (n : ℤ) ((10 : ℤ) ^ e)
  rw [← h1] at h2
  have h3 : ((10 : ℤ) ^ e) = (((10 ^ e : ℕ) : ℤ)) := by push_cast; ring
  rw [h3] at h2
  exact_mod_cast h2

theorem parseUnsigned_decimal {cs : List Char} {q : ℚ} (h : parseUnsigned cs = some q) :
    DecimalRat q := by
  unfold parseUnsigned at h
  rcases hds : dotSplit cs with _ | ⟨b, a⟩ <;> rw [hds] at h
  · exact absurd h (by simp)
  · rw [Option.some_bind] at h
    by_cases h1 : b ++ a = []
    · simp [h1] at h
    · by_cases h2 : (b ++ a).all Char.isDigit
      · simp only [if_neg h1, if_pos h2, Option.some_inj] at h
        have := denom_div_pow10 (digitsVal (b ++ a)) a.length
        exact ⟨a.length, h ▸ this⟩
      · simp [h1, h2] at h

theorem parseNum_decimal {s : String} {q : ℚ} (h : parseNum s = some q) : DecimalRat q := by
  unfold parseNum at h
  split at h
  · rcases hu : parseUnsigned s.data.tail with _ | v <;> rw [hu] at h
    · exact absurd h (by simp)
    · rw [Option.map_some', Option.some_inj] at h
      obtain ⟨k, hk⟩ := parseUnsigned_decimal hu
      exact ⟨k, by rw [← h, Rat.neg_den]; exact hk⟩
  · split at h
    · exact parseUnsigned_decimal h
    · exact parseUnsigned_decimal h

/-- Fuelled extraction of the maximal power of `p` dividing `n`. -/
def stripFac (p : Nat) : Nat → Nat → Nat × Nat
  | 0, n => (0, n)
  | f + 1, n =>
    if 2 ≤ p ∧ p ∣ n ∧ n ≠ 0 then
      let r := stripFac p f (n / p)
      (r.1 + 1, r.2)
    else (0, n)

theorem stripFac_spec (p : Nat) (hp : 2 ≤ p) (f : Nat) :
    ∀ n, n ≠ 0 → n ≤ f →
      p ^ (stripFac p f n).1 * (stripFac p f n).2 = n ∧ ¬ p ∣ (stripFac p f n).2 ∧
        (stripFac p f n).2 ≠ 0 := by
  induction f with
  | zero => intro n hn h0; omega
  | succ f ih =>
    intro n hn hf
    by_cases hc : 2 ≤ p ∧ p ∣ n ∧ n ≠ 0
    · have hdvd := hc.2.1
      have hq : n / p ≠ 0 := by
        intro h0
        have := Nat.div_mul_cancel hdvd
        rw [h0] at this
        omega
      have hlt : n / p < n := Nat.div_lt_self (Nat.pos_of_ne_zero hn) (by omega)
      have hle : n / p ≤ f := by omega
      obtain ⟨h1, h2, h3⟩ := ih (n / p) hq hle
      rw [stripFac, if_pos hc]
      refine ⟨?_, h2, h3⟩
      simp only [pow_succ]
      calc p ^ (stripFac p f (n / p)).1 * p * (stripFac p f (n / p)).2
          = (p ^ (stripFac p f (n / p)).1 * (stripFac p f (n / p)).2) * p := by ring
        _ = (n / p) * p := by rw [h1]
        _ = n := Nat.div_mul_cancel hdvd
    · rw [stripFac, if_neg hc]
      have : ¬ p ∣ n := by
        intro hd
        exact hc ⟨hp, hd, hn⟩
      simpa [hn] using this

/-- An exponent `k` with `d ∣ 10 ^ k`, whenever one exists at all. -/
def pow10Exp (d : Nat) : Nat :=
  let s2 := stripFac 2 d d
  let s5 := stripFac 5 s2.2 s2.2
  max s2.1 s5.1

theorem pow10Exp_spec (d : Nat) (hd : d ≠ 0) (h : ∃ k, d ∣ 10 ^ k) :
    d ∣ 10 ^ pow10Exp d := by
  obtain ⟨k, hk⟩ := h
  obtain ⟨h2eq, h2nd, h2ne⟩ := stripFac_spec 2 (by norm_num) d d hd le_rfl
  set a := (stripFac 2 d d).1 with ha
  set r2 := (stripFac 2 d d).2 with hr2
  obtain ⟨h5eq, h5nd, h5ne⟩ := stripFac_spec 5 (by norm_num) r2 r2 h2ne le_rfl
  set b := (stripFac 5 r2 r2).1 with hb
  set r := (stripFac 5 r2 r2).2 with hr
  have hrr2 : r ∣ r2 := ⟨5 ^ b, by rw [← h5eq]; ring⟩
  have hrd : r ∣ d := ⟨2 ^ a * 5 ^ b, by rw [← h2eq, ← h5eq]; ring⟩
  have hr10 : r ∣ 10 ^ k := hrd.trans hk
  have h2nr : ¬ 2 ∣ r := fun hdr => h2nd (dvd_trans hdr hrr2)
  have hcop2 : Nat.Coprime r 2 := Nat.coprime_comm.mp ((Nat.prime_two.coprime_iff_not_dvd).mpr h2nr)
  have hcop5 : Nat.Coprime r 5 :=
    Nat.coprime_comm.mp ((Nat.prime_five.coprime_iff_not_dvd).mpr h5nd)
  have hcop10 : Nat.Coprime r (10 ^ k) := by
    have : (10 : ℕ) = 2 * 5 := by norm_num
    rw [this, mul_pow]
    exact Nat.Coprime.mul_right (hcop2.pow_right k) (hcop5.pow_right k)
  have hr1 : r = 1 := Nat.dvd_one.mp (hcop10 ▸ Nat.dvd_gcd (dvd_refl r) hr10)
  have hd2 : d = 2 ^ a * 5 ^ b := by rw [← h2eq, ← h5eq, hr1, mul_one]
  have h10 : (10 : ℕ) ^ (max a b) = 2 ^ (max a b) * 5 ^ (max a b) := by
    rw [show (10 : ℕ) = 2 * 5 by norm_num, mul_pow]
  have hgoal : d ∣ 10 ^ (max a b) := by
    rw [hd2, h10]
    exact mul_dvd_mul (pow_dvd_pow 2 (le_max_left a b)) (pow_dvd_pow 5 (le_max_right a b))
  exact hgoal

/-- Base-10 digits of `m`, little-endian, zero-padded to length at least `k + 1`. -/
def paddedDigits (m k : Nat) : List Nat :=
  natDigits m ++ List.replicate (k + 1 - (natDigits m).length) 0

/-- Big-endian digit characters of `m`, with at least `k + 1` of them. -/
def numChars (m k : Nat) : List Char :=
  ((paddedDigits m k).reverse).map digitChar10

/-- Decimal numeral for `m / 10 ^ k`: the digit characters with a point
separating the last `k` of them. -/
def printChars (m k : Nat) : List Char :=
  if k = 0 then numChars m k
  else (numChars m k).take ((numChars m k).length - k) ++
    '.' :: (numChars m k).drop ((numChars m k).length - k)

/-- Serialize a rational with decimal denominator exactly, the way `str` on a
float reproduces its value. -/
def printNum (q : ℚ) : String :=
  if q.num < 0 then
    String.mk ('-' :: printChars (q.num.natAbs * (10 ^ pow10Exp q.den / q.den)) (pow10Exp q.den))
  else
    String.mk (printChars (q.num.natAbs * (10 ^ pow10Exp q.den / q.den)) (pow10Exp q.den))

theorem dotSplit_append (a b : List Char) (ha : '.' ∉ a) (hb : '.' ∉ b) :
    dotSplit (a ++ '.' :: b) = some (a, b) := by
  induction a with
  | nil => simp [dotSplit, hb]
  | cons c t ih =>
    have hc : c ≠ '.' := fun h => ha (h ▸ List.mem_cons_self c t)
    have ht : '.' ∉ t := fun h => ha (List.mem_cons_of_mem c h)
    simp [dotSplit, hc, ih ht]

theorem dotSplit_no_dot (a : List Char) (ha : '.' ∉ a) : dotSplit a = some (a, []) := by
  induction a with
  | nil => rfl
  | cons c t ih =>
    have hc : c ≠ '.' := fun h => ha (h ▸ List.mem_cons_self c t)
    have ht : '.' ∉ t := fun h => ha (List.mem_cons_of_mem c h)
    simp [dotSplit, hc, ih ht]

theorem paddedDigits_lt_ten (m k : Nat) : ∀ d ∈ paddedDigits m k, d < 10 := by
  intro d hd
  rcases List.mem_append.mp hd with h | h
  · exact natDigits_lt_ten m d h
  · have := List.eq_of_mem_replicate h
    omega

theorem paddedDigits_len (m k : Nat) : k + 1 ≤ (paddedDigits m k).length := by
  simp only [paddedDigits, List.length_append, List.length_replicate]
  omega

theorem ofDigitsLE_paddedDigits (m k : Nat) : ofDigitsLE (paddedDigits m k) = m := by
  rw [paddedDigits, ofDigitsLE_append, ofDigitsLE_replicate_zero, ofDigitsLE_natDigits]
  ring

theorem numChars_len (m k : Nat) : (numChars m k).length = (paddedDigits m k).length := by
  simp [numChars]

theorem numChars_digits (m k : Nat) : ∀ c ∈ numChars m k, ∃ d, d < 10 ∧ c = digitChar10 d := by
  intro c hc
  rcases List.mem_map.mp hc with ⟨d, hd, rfl⟩
  exact ⟨d, paddedDigits_lt_ten m k d (List.mem_reverse.mp hd), rfl⟩

theorem numChars_no_dot (m k : Nat) : '.' ∉ numChars m k := by
  intro hmem
  obtain ⟨d, hd, hc⟩ := numChars_digits m k _ hmem
  exact (digitChar10_facts d hd).2.1 hc.symm

theorem numChars_all_digit (m k : Nat) : (numChars m k).all Char.isDigit = true := by
  rw [List.all_eq_true]
  intro c hc
  obtain ⟨d, hd, rfl⟩ := numChars_digits m k c hc
  exact (digitChar10_facts d hd).1

theorem numChars_ne_nil (m k : Nat) : numChars m k ≠ [] := by
  have h1 := paddedDigits_len m k
  have h2 := numChars_len m k
  intro h
  rw [h] at h2
  simp at h2
  omega

theorem digitsVal_numChars (m k : Nat) : digitsVal (numChars m k) = m := by
  have hmap : (numChars m k).map charDigit = (paddedDigits m k).reverse := by
    rw [numChars, List.map_map]
    have : ∀ d ∈ (paddedDigits m k).reverse, (charDigit ∘ digitChar10) d = id d := by
      intro d hd
      exact charDigit_digitChar10 d (paddedDigits_lt_ten m k d (List.mem_reverse.mp hd))
    rw [List.map_congr_left this, List.map_id]
  rw [digitsVal, hmap, List.reverse_reverse, ofDigitsLE_paddedDigits]

theorem parseUnsigned_printChars (m k : Nat) :
    parseUnsigned (printChars m k) = some ((m : ℚ) / (10 : ℚ) ^ k) := by
  by_cases hk : k = 0
  · subst hk
    rw [printChars, if_pos rfl, parseUnsigned, dotSplit_no_dot _ (numChars_no_dot m 0),
      Option.some_bind]
    rw [if_neg (by simp [numChars_ne_nil m 0]), if_pos (by simp [numChars_all_digit m 0])]
    simp [digitsVal_numChars m 0]
  · have hL : k + 1 ≤ (numChars m k).length := by
      rw [numChars_len]; exact paddedDigits_len m k
    have hmemtake : ∀ c ∈ (numChars m k).take ((numChars m k).length - k), c ∈ numChars m k :=
      fun c hc => List.mem_of_mem_take hc
    have hmemdrop : ∀ c ∈ (numChars m k).drop ((numChars m k).length - k), c ∈ numChars m k :=
      fun c hc => List.mem_of_mem_drop hc
    have hnd1 : '.' ∉ (numChars m k).take ((numChars m k).length - k) :=
      fun h => numChars_no_dot m k (hmemtake _ h)
    have hnd2 : '.' ∉ (numChars m k).drop ((numChars m k).length - k) :=
      fun h => numChars_no_dot m k (hmemdrop _ h)
    rw [printChars, if_neg hk, parseUnsigned, dotSplit_append _ _ hnd1 hnd2, Option.some_bind]
    rw [List.take_append_drop]
    rw [if_neg (numChars_ne_nil m k), if_pos (numChars_all_digit m k)]
    rw [digitsVal_numChars m k, List.length_drop]
    have hlen : (numChars m k).length - ((numChars m k).length - k) = k := by omega
    rw [hlen]

theorem printChars_cons (m k : Nat) :
    ∃ d t, d < 10 ∧ printChars m k = digitChar10 d :: t := by
  rcases hnc : numChars m k with _ | ⟨c0, rest⟩
  · exact absurd hnc (numChars_ne_nil m k)
  · obtain ⟨d, hd, rfl⟩ := numChars_digits m k c0 (by rw [hnc]; exact List.mem_cons_self _ _)
    by_cases hk : k = 0
    · exact ⟨d, rest, hd, by rw [printChars, if_pos hk, hnc]⟩
    · have hL : k + 1 ≤ (numChars m k).length := by
        rw [numChars_len]; exact paddedDigits_len m k
      have h1 : (numChars m k).take ((numChars m k).length - k) =
          digitChar10 d :: rest.take ((numChars m k).length - k - 1) := by
        rw [show (numChars m k).length - k = ((numChars m k).length - k - 1) + 1 by omega]
        rw [hnc, List.take_succ_cons]
        simp
      refine ⟨d, rest.take ((numChars m k).length - k - 1) ++
        '.' :: (numChars m k).drop ((numChars m k).length - k), hd, ?_⟩
      rw [printChars, if_neg hk, h1]
      rfl

theorem parseNum_printNum (q : ℚ) (h : DecimalRat q) : parseNum (printNum q) = some q := by
  have hden : q.den ≠ 0 := q.den_nz
  have hdvd : (q.den : ℕ) ∣ 10 ^ pow10Exp q.den := pow10Exp_spec q.den hden h
  have hmval : ((q.num.natAbs * (10 ^ pow10Exp q.den / q.den) : ℕ) : ℚ) /
      (10 : ℚ) ^ pow10Exp q.den = (q.num.natAbs : ℚ) / (q.den : ℚ) := by
    have hx : ((10 ^ pow10Exp q.den / q.den : ℕ) : ℚ) * (q.den : ℚ) = (10 : ℚ) ^ pow10Exp q.den := by
      have hnat : (10 ^ pow10Exp q.den / q.den) * q.den = 10 ^ pow10Exp q.den :=
        Nat.div_mul_cancel hdvd
      exact_mod_cast hnat
    have hpow : ((10 : ℚ) ^ pow10Exp q.den) ≠ 0 := pow_ne_zero _ (by norm_num)
    have hc : ((10 ^ pow10Exp q.den / q.den : ℕ) : ℚ) ≠ 0 := by
      intro h0
      rw [h0, zero_mul] at hx
      exact hpow hx.symm
    have hm2 : ((q.num.natAbs * (10 ^ pow10Exp q.den / q.den) : ℕ) : ℚ) =
        ((10 ^ pow10Exp q.den / q.den : ℕ) : ℚ) * (q.num.natAbs : ℚ) := by
      push_cast
      ring
    rw [hm2, ← hx, mul_div_mul_left _ _ hc]
  by_cases hneg : q.num < 0
  · rw [printNum, if_pos hneg, parseNum]
    rw [show (String.mk ('-' :: printChars (q.num.natAbs * (10 ^ pow10Exp q.den / q.den))
      (pow10Exp q.den))).data = '-' :: printChars (q.num.natAbs * (10 ^ pow10Exp q.den / q.den))
      (pow10Exp q.den) from rfl]
    rw [if_pos (by rfl)]
    rw [List.tail_cons, parseUnsigned_printChars, Option.map_some']
    rw [hmval]
    have habs : ((q.num.natAbs : ℚ)) = -((q.num : ℚ)) := by
      have h1 : ((q.num.natAbs : ℤ)) = -q.num := Int.ofNat_natAbs_of_nonpos (le_of_lt hneg)
      have h2 : ((q.num.natAbs : ℚ)) = (((q.num.natAbs : ℤ)) : ℚ) :=
        (Int.cast_natCast q.num.natAbs).symm
      rw [h2, h1]
      push_cast
      ring
    rw [habs, Option.some_inj, neg_div, neg_neg, Rat.num_div_den]
  · rw [printNum, if_neg hneg, parseNum]
    obtain ⟨d, t, hd, hpc⟩ := printChars_cons (q.num.natAbs * (10 ^ pow10Exp q.den / q.den))
      (pow10Exp q.den)
    rw [show (String.mk (printChars (q.num.natAbs * (10 ^ pow10Exp q.den / q.den))
      (pow10Exp q.den))).data = printChars (q.num.natAbs * (10 ^ pow10Exp q.den / q.den))
      (pow10Exp q.den) from rfl]
    rw [hpc]
    rw [if_neg (by
      simp only [List.head?_cons, Option.some_inj]
      exact (digitChar10_facts d hd).2.2.1)]
    rw [if_neg (by
      simp only [List.head?_cons, Option.some_inj]
      exact (digitChar10_facts d hd).2.2.2.1)]
    rw [← hpc, parseUnsigned_printChars, hmval]
    have habs : ((q.num.natAbs : ℚ)) = ((q.num : ℚ)) := by
      have h1 : ((q.num.natAbs : ℤ)) = q.num := Int.natAbs_of_nonneg (not_lt.mp hneg)
      have h2 : ((q.num.natAbs : ℚ)) = (((q.num.natAbs : ℤ)) : ℚ) :=
        (Int.cast_natCast q.num.natAbs).symm
      rw [h2, h1]
    rw [habs, Option.some_inj, Rat.num_div_den]

/-- Split a character list at every character satisfying `p`. -/
def splitPred (p : Char → Bool) : List Char → List (List Char)
  | [] => [[]]
  | c :: t =>
    if p c then [] :: splitPred p t
    else match splitPred p t with
      | [] => [[c]]
      | h :: t2 => (c :: h) :: t2

theorem splitPred_ne_nil (p : Char → Bool) (cs : List Char) : splitPred p cs ≠ [] := by
  cases cs with
  | nil => simp [splitPred]
  | cons c t =>
    rw [splitPred]
    by_cases hc : p c
    · simp [hc]
    · rw [if_neg hc]
      rcases h : splitPred p t with _ | ⟨a, b⟩ <;> simp

/-- Embedding of `pd.read_csv(path, sep)`: split lines, skip blank lines,
take the first line as the header, and fail on an empty file or on a row
wider than the header. Returns the column count and the data rows. -/
def parseCsv (sep : Char) (content : String) : Option (Nat × List (List String)) :=
  match (splitPred (fun c => c = '\n') content.data).filter (fun l => l ≠ []) with
  | [] => none
  | h :: rest =>
    if (rest.map (fun l => splitPred (fun c => c = sep) l)).all
        (fun r => r.length ≤ (splitPred (fun c => c = sep) h).length) then
      some ((splitPred (fun c => c = sep) h).length,
        (rest.map (fun l => splitPred (fun c => c = sep) l)).map
          (fun r => r.map (fun cell => String.mk cell)))
    else none

/-- One cell of `_clean`: replace decimal commas by points, then coerce to a
number, `None` standing for the NaN produced by `errors="coerce"`. -/
def cellToNum (s : String) : Option ℚ :=
  parseNum (String.mk (s.data.map (fun c => if c = ',' then '.' else c)))

/-- Embedding of `_clean`: keep the first two cells of every row, coerce
both to numbers, then drop every row with a missing value. -/
def clean (rows : List (List String)) : List (ℚ × ℚ) :=
  (rows.map (fun r => (cellToNum (r.getD 0 ""), cellToNum (r.getD 1 "")))).filterMap
    (fun p => match p.1, p.2 with
      | some a, some b => some (a, b)
      | _, _ => none)

/-- The specification's description of the cleaning step: one pass that keeps
exactly the rows whose first two cells both parse. -/
def cleanSpec (rows : List (List String)) : List (ℚ × ℚ) :=
  rows.filterMap (fun r => match cellToNum (r.getD 0 ""), cellToNum (r.getD 1 "") with
    | some a, some b => some (a, b)
    | _, _ => none)

theorem clean_eq_cleanSpec (rows : List (List String)) : clean rows = cleanSpec rows := by
  rw [clean, cleanSpec, List.filterMap_map]
  rfl

/-- The semicolon retry of `_read_csv_any`: here a header of fewer than two
columns makes `_clean` fail on the two-name column assignment. -/
def readFallback (content : String) : Option (List (ℚ × ℚ)) :=
  (parseCsv ';' content).bind (fun p => if 2 ≤ p.1 then some (clean p.2) else none)

/-- Embedding of `_read_csv_any`: try the comma delimiter, and fall back to
the semicolon delimiter when parsing fails or fewer than two columns result. -/
def readCsvAny (content : String) : Option (List (ℚ × ℚ)) :=
  (parseCsv ',' content).elim (readFallback content)
    (fun p => if 2 ≤ p.1 then some (clean p.2) else readFallback content)

theorem clean_decimal (rows : List (List String)) :
    ∀ p ∈ clean rows, DecimalRat p.1 ∧ DecimalRat p.2 := by
  intro p hp
  rw [clean_eq_cleanSpec, cleanSpec] at hp
  obtain ⟨r, _, hr⟩ := List.mem_filterMap.mp hp
  rcases h1 : cellToNum (r.getD 0 "") with _ | a <;> rw [h1] at hr
  · simp at hr
  · rcases h2 : cellToNum (r.getD 1 "") with _ | b <;> rw [h2] at hr
    · simp at hr
    · simp only [Option.some_inj] at hr
      subst hr
      exact ⟨parseNum_decimal h1, parseNum_decimal h2⟩

theorem readFallback_decimal {content : String} {rows : List (ℚ × ℚ)}
    (h : readFallback content = some rows) : ∀ p ∈ rows, DecimalRat p.1 ∧ DecimalRat p.2 := by
  rw [readFallback] at h
  rcases h2 : parseCsv ';' content with _ | ⟨cols2, rs2⟩ <;> rw [h2] at h
  · exact absurd h (by simp)
  · rw [Option.some_bind] at h
    by_cases hc : 2 ≤ cols2
    · rw [if_pos hc, Option.some_inj] at h
      exact h ▸ clean_decimal rs2
    · simp [hc] at h

theorem readCsvAny_decimal {content : String} {rows : List (ℚ × ℚ)}
    (h : readCsvAny content = some rows) : ∀ p ∈ rows, DecimalRat p.1 ∧ DecimalRat p.2 := by
  rw [readCsvAny] at h
  rcases h1 : parseCsv ',' content with _ | ⟨cols, rs⟩ <;> rw [h1] at h
  · simp only [Option.elim] at h
    exact readFallback_decimal h
  · simp only [Option.elim] at h
    by_cases hc : 2 ≤ cols
    · rw [if_pos hc, Option.some_inj] at h
      exact h ▸ clean_decimal rs
    · rw [if_neg hc] at h
      exact readFallback_decimal h

/-- Strip leading and trailing whitespace (`str.strip`). -/
def trimChars (cs : List Char) : List Char :=
  ((cs.dropWhile Char.isWhitespace).reverse.dropWhile Char.isWhitespace).reverse

/-- ASCII lowering of one character (`str.lower` on filenames). -/
def charLower (c : Char) : Char :=
  if 'A' ≤ c ∧ c ≤ 'Z' then Char.ofNat (c.toNat + 32) else c

/-- Lexicographic comparison by code point, as Python compares strings. -/
def charListLe : List Char → List Char → Bool
  | [], _ => true
  | _ :: _, [] => false
  | a :: s, b :: t =>
    if a.toNat < b.toNat then true
    else if b.toNat < a.toNat then false
    else charListLe s t

/-- The delimiter class of the `re.split` pattern for `TARGET_GUESSES`. -/
def isGuessDelim (c : Char) : Bool := c = ',' || c = ';' || c.isWhitespace

/-- Tokens of the `TARGET_GUESSES` string: split on delimiter runs, dropping
empty tokens, after stripping the raw value. -/
def guessTokens (s : String) : List String :=
  ((splitPred isGuessDelim (trimChars s.data)).filter (fun l => l ≠ [])).map
    (fun l => String.mk l)

/-- Embedding of the `TARGET_GUESSES` resolution: `none` means auto mode. -/
def parseGuesses (s : String) : Option (List ℚ) :=
  if trimChars s.data = [] then none
  else if (guessTokens s).filterMap parseNum = [] then none
  else some ((guessTokens s).filterMap parseNum)

theorem parseGuesses_decimal {s : String} {gs : List ℚ} (h : parseGuesses s = some gs) :
    ∀ g ∈ gs, DecimalRat g := by
  rw [parseGuesses] at h
  by_cases h1 : trimChars s.data = []
  · simp [h1] at h
  · by_cases h2 : (guessTokens s).filterMap parseNum = []
    · simp [h1, h2] at h
    · rw [if_neg h1, if_neg h2, Option.some_inj] at h
      intro g hg
      rw [← h] at hg
      obtain ⟨t, _, ht⟩ := List.mem_filterMap.mp hg
      exact parseNum_decimal ht

/-- Fuelled scan past a plateau of value `v`: the first index at or past `i`
that reaches `iMax` or whose value differs from `v` (the inner loop of
`scipy.signal._local_maxima_1d`). -/
def plateauEnd (x : List ℚ) (v : ℚ) (iMax : Nat) : Nat → Nat → Nat
  | 0, i => i
  | f + 1, i => if i < iMax ∧ x.getD i 0 = v then plateauEnd x v iMax f (i + 1) else i

/-- Fuelled main loop of `scipy.signal._local_maxima_1d`: emit the midpoint
of every maximal plateau with a strictly smaller neighbour on both sides. -/
def lmAux (x : List ℚ) (iMax : Nat) : Nat → Nat → List Nat
  | 0, _ => []
  | f + 1, i =>
    if i < iMax then
      if x.getD (i - 1) 0 < x.getD i 0 then
        if x.getD (plateauEnd x (x.getD i 0) iMax iMax (i + 1)) 0 < x.getD i 0 then
          (i + (plateauEnd x (x.getD i 0) iMax iMax (i + 1) - 1)) / 2 ::
            lmAux x iMax f (plateauEnd x (x.getD i 0) iMax iMax (i + 1) + 1)
        else lmAux x iMax f (i + 1)
      else lmAux x iMax f (i + 1)
    else []

/-- All local maxima of `x`, in increasing order of index. -/
def localMaxima (x : List ℚ) : List Nat := lmAux x (x.length - 1) x.length 1

/-- Fuelled left walk of `scipy` `_peak_prominences`: minimum of the samples
left of the peak until the first one strictly above the peak value. -/
def leftMinAux (x : List ℚ) (v : ℚ) : Nat → Nat → ℚ → ℚ
  | 0, _, cur => cur
  | f + 1, i, cur =>
    if x.getD i 0 ≤ v then
      if i = 0 then min cur (x.getD i 0)
      else leftMinAux x v f (i - 1) (min cur (x.getD i 0))
    else cur

/-- Fuelled right walk of `scipy` `_peak_prominences`. -/
def rightMinAux (x : List ℚ) (v : ℚ) (iMax : Nat) : Nat → Nat → ℚ → ℚ
  | 0, _, cur => cur
  | f + 1, i, cur =>
    if i ≤ iMax ∧ x.getD i 0 ≤ v then rightMinAux x v iMax f (i + 1) (min cur (x.getD i 0))
    else cur

/-- Topographic prominence of the sample at `p`, per `scipy`
`_peak_prominences` with no window length. -/
def prominence (x : List ℚ) (p : Nat) : ℚ :=
  x.getD p 0 - max (leftMinAux x (x.getD p 0) (p + 1) p (x.getD p 0))
    (rightMinAux x (x.getD p 0) (x.length - 1) (x.length - p) p (x.getD p 0))

/-- Embedding of `_find_minima`: peaks of the inverted signal `1 - tr` whose
prominence reaches the threshold (the wavenumber argument is unused, as in
the source). -/
def findMinima (wn tr : List ℚ) (prom : ℚ) : List Nat :=
  (localMaxima (tr.map (fun t => 1 - t))).filter
    (fun p => prom ≤ prominence (tr.map (fun t => 1 - t)) p)

/-- `p` sits on an inner plateau of `x` with a strictly smaller neighbour on
each side: a local maximum in the plateau sense. -/
def IsLocalMax (x : List ℚ) (p : Nat) : Prop :=
  ∃ l r, 1 ≤ l ∧ l ≤ p ∧ p ≤ r ∧ r + 1 < x.length ∧
    (∀ j, l ≤ j → j ≤ r → x.getD j 0 = x.getD p 0) ∧
    x.getD (l - 1) 0 < x.getD p 0 ∧ x.getD (r + 1) 0 < x.getD p 0

/-- Prominence at least `τ` in the specification's sense: on each side of
`p`, within the window that stops at the first strictly higher point or at
the border, some sample lies at least `τ` below the peak value. -/
def PromAtLeast (x : List ℚ) (p : Nat) (τ : ℚ) : Prop :=
  (∃ j, j ≤ p ∧ x.getD j 0 ≤ x.getD p 0 - τ ∧
    ∀ k, j ≤ k → k ≤ p → x.getD k 0 ≤ x.getD p 0) ∧
  (∃ j, p ≤ j ∧ j < x.length ∧ x.getD j 0 ≤ x.getD p 0 - τ ∧
    ∀ k, p ≤ k → k ≤ j → x.getD k 0 ≤ x.getD p 0)

theorem plateauEnd_ge (x : List ℚ) (v : ℚ) (iMax : Nat) :
    ∀ f i, i ≤ plateauEnd x v iMax f i := by
  intro f
  induction f with
  | zero => intro i; exact le_rfl
  | succ f ih =>
    intro i
    rw [plateauEnd]
    split
    · exact le_trans (Nat.le_succ i) (ih (i + 1))
    · exact le_rfl

theorem plateauEnd_le (x : List ℚ) (v : ℚ) (iMax : Nat) :
    ∀ f i, i ≤ iMax → plateauEnd x v iMax f i ≤ iMax := by
  intro f
  induction f with
  | zero => intro i h; exact h
  | succ f ih =>
    intro i h
    rw [plateauEnd]
    split
    · next hc => exact ih (i + 1) hc.1
    · exact h

theorem plateauEnd_eq (x : List ℚ) (v : ℚ) (iMax : Nat) :
    ∀ f i j, i ≤ j → j < plateauEnd x v iMax f i → x.getD j 0 = v := by
  intro f
  induction f with
  | zero => intro i j hij hj; rw [plateauEnd] at hj; omega
  | succ f ih =>
    intro i j hij hj
    rw [plateauEnd] at hj
    split at hj
    · next hc =>
      by_cases hji : j = i
      · exact hji ▸ hc.2
      · exact ih (i + 1) j (by omega) hj
    · omega

theorem lmAux_sound (x : List ℚ) (iMax : Nat) (hx : iMax + 1 = x.length) :
    ∀ f i, 1 ≤ i →
      (∀ p ∈ lmAux x iMax f i, i ≤ p ∧ p + 1 < x.length ∧ IsLocalMax x p) ∧
        List.Pairwise (fun a b => a < b) (lmAux x iMax f i) := by
  intro f
  induction f with
  | zero => intro i hi; simp [lmAux]
  | succ f ih =>
    intro i hi
    rw [lmAux]
    by_cases h1 : i < iMax
    case neg => simp [h1]
    case pos =>
      rw [if_pos h1]
      by_cases h2 : x.getD (i - 1) 0 < x.getD i 0
      case neg =>
        rw [if_neg h2]
        obtain ⟨hmem, hpw⟩ := ih (i + 1) (by omega)
        refine ⟨fun p hp => ⟨?_, (hmem p hp).2.1, (hmem p hp).2.2⟩, hpw⟩
        have := (hmem p hp).1
        omega
      case pos =>
        rw [if_pos h2]
        by_cases h3 : x.getD (plateauEnd x (x.getD i 0) iMax iMax (i + 1)) 0 < x.getD i 0
        case neg =>
          rw [if_neg h3]
          obtain ⟨hmem, hpw⟩ := ih (i + 1) (by omega)
          refine ⟨fun p hp => ⟨?_, (hmem p hp).2.1, (hmem p hp).2.2⟩, hpw⟩
          have := (hmem p hp).1
          omega
        case pos =>
          rw [if_pos h3]
          set ia := plateauEnd x (x.getD i 0) iMax iMax (i + 1) with hia
          have hia1 : i + 1 ≤ ia := plateauEnd_ge x (x.getD i 0) iMax iMax (i + 1)
          have hia2 : ia ≤ iMax := plateauEnd_le x (x.getD i 0) iMax iMax (i + 1) (by omega)
          set m := (i + (ia - 1)) / 2 with hm
          have hm1 : i ≤ m := by omega
          have hm2 : m ≤ ia - 1 := by omega
          obtain ⟨hmem, hpw⟩ := ih (ia + 1) (by omega)
          have hplateau : ∀ j, i ≤ j → j ≤ ia - 1 → x.getD j 0 = x.getD i 0 := by
            intro j hj1 hj2
            by_cases hji : j = i
            · rw [hji]
            · exact plateauEnd_eq x (x.getD i 0) iMax iMax (i + 1) j (by omega) (by omega)
          have hxm : x.getD m 0 = x.getD i 0 := hplateau m hm1 hm2
          have hloc : IsLocalMax x m := by
            refine ⟨i, ia - 1, hi, hm1, hm2, by omega, ?_, ?_, ?_⟩
            · intro j hj1 hj2
              rw [hplateau j hj1 hj2, hxm]
            · rw [hxm]; exact h2
            · rw [hxm]
              have : ia - 1 + 1 = ia := by omega
              rw [this]
              exact h3
          constructor
          · intro p hp
            rcases List.mem_cons.mp hp with hp | hp
            · subst hp
              exact ⟨hm1, by omega, hloc⟩
            · obtain ⟨ha, hb, hc⟩ := hmem p hp
              exact ⟨by omega, hb, hc⟩
          · refine List.Pairwise.cons ?_ hpw
            intro p hp
            have := (hmem p hp).1
            omega

theorem localMaxima_sound (x : List ℚ) :
    (∀ p ∈ localMaxima x, 1 ≤ p ∧ p + 1 < x.length ∧ IsLocalMax x p) ∧
      List.Pairwise (fun a b => a < b) (localMaxima x) := by
  by_cases h0 : x.length = 0
  · rw [localMaxima, h0]
    simp [lmAux]
  · rw [localMaxima]
    exact lmAux_sound x (x.length - 1) (by omega) x.length 1 le_rfl

theorem leftMinAux_sound (x : List ℚ) (v : ℚ) :
    ∀ f i cur, leftMinAux x v f i cur ≤ cur ∧
      (leftMinAux x v f i cur = cur ∨
        ∃ j, j ≤ i ∧ x.getD j 0 = leftMinAux x v f i cur ∧
          ∀ k, j ≤ k → k ≤ i → x.getD k 0 ≤ v) := by
  intro f
  induction f with
  | zero => intro i cur; exact ⟨le_rfl, Or.inl rfl⟩
  | succ f ih =>
    intro i cur
    rw [leftMinAux]
    by_cases hc : x.getD i 0 ≤ v
    case neg => rw [if_neg hc]; exact ⟨le_rfl, Or.inl rfl⟩
    case pos =>
      rw [if_pos hc]
      by_cases hi : i = 0
      · rw [if_pos hi]
        subst hi
        refine ⟨min_le_left _ _, ?_⟩
        rcases le_total cur (x.getD 0 0) with h | h
        · exact Or.inl (min_eq_left h)
        · refine Or.inr ⟨0, le_rfl, (min_eq_right h).symm, ?_⟩
          intro k hk1 hk2
          have : k = 0 := by omega
          rw [this]
          exact hc
      · rw [if_neg hi]
        obtain ⟨hle, hor⟩ := ih (i - 1) (min cur (x.getD i 0))
        refine ⟨le_trans hle (min_le_left _ _), ?_⟩
        rcases hor with heq | ⟨j, hj1, hj2, hj3⟩
        · rw [heq]
          rcases le_total cur (x.getD i 0) with h | h
          · exact Or.inl (min_eq_left h)
          · refine Or.inr ⟨i, le_rfl, (min_eq_right h).symm, ?_⟩
            intro k hk1 hk2
            have : k = i := by omega
            rw [this]
            exact hc
        · refine Or.inr ⟨j, by omega, hj2, ?_⟩
          intro k hk1 hk2
          by_cases hki : k = i
          · rw [hki]; exact hc
          · exact hj3 k hk1 (by omega)

theorem rightMinAux_sound (x : List ℚ) (v : ℚ) (iMax : Nat) :
    ∀ f i cur, rightMinAux x v iMax f i cur ≤ cur ∧
      (rightMinAux x v iMax f i cur = cur ∨
        ∃ j, i ≤ j ∧ j ≤ iMax ∧ x.getD j 0 = rightMinAux x v iMax f i cur ∧
          ∀ k, i ≤ k → k ≤ j → x.getD k 0 ≤ v) := by
  intro f
  induction f with
  | zero => intro i cur; exact ⟨le_rfl, Or.inl rfl⟩
  | succ f ih =>
    intro i cur
    rw [rightMinAux]
    by_cases hc : i ≤ iMax ∧ x.getD i 0 ≤ v
    case neg => rw [if_neg hc]; exact ⟨le_rfl, Or.inl rfl⟩
    case pos =>
      rw [if_pos hc]
      obtain ⟨hle, hor⟩ := ih (i + 1) (min cur (x.getD i 0))
      refine ⟨le_trans hle (min_le_left _ _), ?_⟩
      rcases hor with heq | ⟨j, hj1, hj2, hj3, hj4⟩
      · rw [heq]
        rcases le_total cur (x.getD i 0) with h | h
        · exact Or.inl (min_eq_left h)
        · refine Or.inr ⟨i, le_rfl, hc.1, (min_eq_right h).symm, ?_⟩
          intro k hk1 hk2
          have : k = i := by omega
          rw [this]
          exact hc.2
      · refine Or.inr ⟨j, by omega, hj2, hj3, ?_⟩
        intro k hk1 hk2
        by_cases hki : k = i
        · rw [hki]; exact hc.2
        · exact hj4 k (by omega) hk2

theorem promAtLeast_of_threshold (x : List ℚ) (p : Nat) (τ : ℚ) (hp : p < x.length)
    (hτ : τ ≤ prominence x p) : PromAtLeast x p τ := by
  rw [prominence] at hτ
  have hboth : max (leftMinAux x (x.getD p 0) (p + 1) p (x.getD p 0))
      (rightMinAux x (x.getD p 0) (x.length - 1) (x.length - p) p (x.getD p 0)) ≤
      x.getD p 0 - τ := by linarith
  have hlm : leftMinAux x (x.getD p 0) (p + 1) p (x.getD p 0) ≤ x.getD p 0 - τ :=
    le_trans (le_max_left _ _) hboth
  have hrm : rightMinAux x (x.getD p 0) (x.length - 1) (x.length - p) p (x.getD p 0) ≤
      x.getD p 0 - τ := le_trans (le_max_right _ _) hboth
  constructor
  · obtain ⟨_, hor⟩ := leftMinAux_sound x (x.getD p 0) (p + 1) p (x.getD p 0)
    rcases hor with heq | ⟨j, hj1, hj2, hj3⟩
    · rw [heq] at hlm
      exact ⟨p, le_rfl, hlm, fun k h1 h2 => by
        have : k = p := by omega
        rw [this]⟩
    · exact ⟨j, hj1, hj2 ▸ hlm, hj3⟩
  · obtain ⟨_, hor⟩ := rightMinAux_sound x (x.getD p 0) (x.length - 1) (x.length - p) p
      (x.getD p 0)
    rcases hor with heq | ⟨j, hj1, hj2, hj3, hj4⟩
    · rw [heq] at hrm
      exact ⟨p, le_rfl, hp, hrm, fun k h1 h2 => by
        have : k = p := by omega
        rw [this]⟩
    · exact ⟨j, hj1, by omega, hj3 ▸ hrm, hj4⟩

theorem inverted_getD (tr : List ℚ) (j : Nat) (hj : j < tr.length) :
    (tr.map (fun t => 1 - t)).getD j 0 = 1 - tr.getD j 0 := by
  rw [List.getD_eq_getElem _ _ (by simpa using hj), List.getElem_map,
    List.getD_eq_getElem _ _ hj]

theorem findMinima_monotone_nil (wn tr : List ℚ) (τ : ℚ)
    (h : (∀ i j, i ≤ j → j < tr.length → tr.getD i 0 ≤ tr.getD j 0) ∨
      (∀ i j, i ≤ j → j < tr.length → tr.getD j 0 ≤ tr.getD i 0)) :
    findMinima wn tr τ = [] := by
  by_contra hne
  obtain ⟨p, hp⟩ := List.exists_mem_of_ne_nil _ hne
  rw [findMinima] at hp
  have hmem := (List.mem_filter.mp hp).1
  obtain ⟨hsound, _⟩ := localMaxima_sound (tr.map (fun t => 1 - t))
  obtain ⟨h1p, hplen, l, r, hl1, hlp, hpr, hr1, hplat, hleft, hright⟩ := hsound p hmem
  rw [List.length_map] at hr1
  have hxl : (tr.map (fun t => 1 - t)).getD l 0 = (tr.map (fun t => 1 - t)).getD p 0 :=
    hplat l le_rfl (hlp.trans hpr)
  have hxr : (tr.map (fun t => 1 - t)).getD r 0 = (tr.map (fun t => 1 - t)).getD p 0 :=
    hplat r (hlp.trans hpr) le_rfl
  rcases h with hmono | hanti
  · have h3 : (tr.map (fun t => 1 - t)).getD (l - 1) 0 < (tr.map (fun t => 1 - t)).getD l 0 := by
      rw [hxl]
      exact hleft
    rw [inverted_getD tr (l - 1) (by omega), inverted_getD tr l (by omega)] at h3
    have h4 : tr.getD l 0 < tr.getD (l - 1) 0 := by linarith
    have h5 := hmono (l - 1) l (by omega) (by omega)
    linarith
  · have h3 : (tr.map (fun t => 1 - t)).getD (r + 1) 0 < (tr.map (fun t => 1 - t)).getD r 0 := by
      rw [hxr]
      exact hright
    rw [inverted_getD tr (r + 1) (by omega), inverted_getD tr r (by omega)] at h3
    have h4 : tr.getD r 0 < tr.getD (r + 1) 0 := by linarith
    have h5 := hanti r (r + 1) (by omega) (by omega)
    linarith

/-- Embedding of `np.argmin`: index of the first minimum of the list. -/
def argminIdx : List ℚ → Nat
  | [] => 0
  | [_] => 0
  | y :: z :: t => if (z :: t).getD (argminIdx (z :: t)) 0 < y then argminIdx (z :: t) + 1 else 0

/-- Embedding of `_nearest_index`: `np.argmin(np.abs(x - value))`. -/
def nearestIndex (x : List ℚ) (value : ℚ) : Nat :=
  argminIdx (x.map (fun t => |t - value|))

theorem argminIdx_lt (ys : List ℚ) (h : ys ≠ []) : argminIdx ys < ys.length := by
  induction ys with
  | nil => exact absurd rfl h
  | cons y t ih =>
    cases t with
    | nil => simp [argminIdx]
    | cons z t2 =>
      rw [argminIdx]
      split
      · have := ih (by simp)
        simpa using Nat.succ_lt_succ this
      · simp

theorem argminIdx_min (ys : List ℚ) : ∀ k, k < ys.length → ys.getD (argminIdx ys) 0 ≤ ys.getD k 0 := by
  induction ys with
  | nil => intro k hk; simp at hk
  | cons y t ih =>
    cases t with
    | nil =>
      intro k hk
      simp only [List.length_cons, List.length_nil] at hk
      have : k = 0 := by omega
      subst this
      simp [argminIdx]
    | cons z t2 =>
      intro k hk
      rw [argminIdx]
      split
      · next hc =>
        rw [List.getD_cons_succ]
        cases k with
        | zero => rw [List.getD_cons_zero]; exact le_of_lt hc
        | succ k2 =>
          rw [List.getD_cons_succ]
          exact ih k2 (by simpa using Nat.lt_of_succ_lt_succ hk)
      · next hc =>
        push_neg at hc
        rw [List.getD_cons_zero]
        cases k with
        | zero => rw [List.getD_cons_zero]
        | succ k2 =>
          rw [List.getD_cons_succ]
          exact le_trans hc (ih k2 (by simpa using Nat.lt_of_succ_lt_succ hk))

/-- The comparison under a stable ascending argsort of `ds`: by value, ties
by original position. -/
def idxLe (ds : List ℚ) (i j : Nat) : Prop :=
  ds.getD i 0 < ds.getD j 0 ∨ (ds.getD i 0 = ds.getD j 0 ∧ i ≤ j)

instance (ds : List ℚ) : DecidableRel (idxLe ds) := fun i j => by
  unfold idxLe
  exact inferInstance

/-- Embedding of `np.argsort(ds)` (ascending, default kind). The default
quicksort is documented as unstable and numpy guarantees no tie order; it
degenerates to a stable insertion sort only below its small-array cutoff
(16 elements). This embedding fixes the stable tie order, so only facts
that are insensitive to the tie order, or explicitly restricted to lists
of fewer than 16 elements, are faithful to the program. -/
def argsortAsc (ds : List ℚ) : List Nat :=
  List.insertionSort (idxLe ds) (List.range ds.length)

/-- The auto-mode selection order: `np.argsort(depths)[::-1][:ppc]`. -/
def autoOrder (ds : List ℚ) (ppc : Int) : List Nat :=
  (argsortAsc ds).reverse.take ppc.toNat

theorem argsortAsc_perm (ds : List ℚ) : (argsortAsc ds).Perm (List.range ds.length) :=
  List.perm_insertionSort _ _

theorem idxLe_total (ds : List ℚ) : ∀ a b, idxLe ds a b ∨ idxLe ds b a := by
  intro a b
  rcases lt_trichotomy (ds.getD a 0) (ds.getD b 0) with h | h | h
  · exact Or.inl (Or.inl h)
  · rcases le_total a b with hab | hab
    · exact Or.inl (Or.inr ⟨h, hab⟩)
    · exact Or.inr (Or.inr ⟨h.symm, hab⟩)
  · exact Or.inr (Or.inl h)

theorem idxLe_trans (ds : List ℚ) : ∀ a b c, idxLe ds a b → idxLe ds b c → idxLe ds a c := by
  intro a b c hab hbc
  rcases hab with h1 | ⟨h1, h1b⟩ <;> rcases hbc with h2 | ⟨h2, h2b⟩
  · exact Or.inl (h1.trans h2)
  · exact Or.inl (h2 ▸ h1)
  · exact Or.inl (h1 ▸ h2)
  · exact Or.inr ⟨h1.trans h2, h1b.trans h2b⟩

theorem argsortAsc_sorted (ds : List ℚ) : List.Pairwise (idxLe ds) (argsortAsc ds) := by
  letI : IsTotal Nat (idxLe ds) := ⟨idxLe_total ds⟩
  letI : IsTrans Nat (idxLe ds) := ⟨idxLe_trans ds⟩
  exact List.sorted_insertionSort (idxLe ds) (List.range ds.length)

theorem argsortAsc_mem (ds : List ℚ) (i : Nat) : i ∈ argsortAsc ds ↔ i < ds.length := by
  rw [(argsortAsc_perm ds).mem_iff, List.mem_range]

theorem sublist_pair_of_sorted {R : Nat → Nat → Prop} {i j : Nat} :
    ∀ l : List Nat, List.Pairwise R l → i ∈ l → j ∈ l → ¬ R j i → i ≠ j → [i, j].Sublist l := by
  intro l
  induction l with
  | nil => intro _ hi; simp at hi
  | cons a t ih =>
    intro hpw hi hj hnr hne
    obtain ⟨ha, hpt⟩ := List.pairwise_cons.mp hpw
    rcases List.mem_cons.mp hi with hia | hit
    · subst hia
      rcases List.mem_cons.mp hj with hja | hjt
      · exact absurd hja.symm hne
      · exact (List.singleton_sublist.mpr hjt).cons₂ i
    · rcases List.mem_cons.mp hj with hja | hjt
      · subst hja
        exact absurd (ha i hit) hnr
      · exact (ih hpt hit hjt hnr hne).cons a

theorem argsortAsc_tie_reversed (ds : List ℚ) (i j : Nat) (hij : i < j) (hj : j < ds.length)
    (htie : ds.getD i 0 = ds.getD j 0) : [j, i].Sublist (argsortAsc ds).reverse := by
  have hi : i ∈ argsortAsc ds := (argsortAsc_mem ds i).mpr (by omega)
  have hjm : j ∈ argsortAsc ds := (argsortAsc_mem ds j).mpr hj
  have hnr : ¬ idxLe ds j i := by
    intro hle
    rcases hle with h | ⟨_, hba⟩
    · rw [htie] at h
      exact lt_irrefl _ h
    · omega
  have hsub : [i, j].Sublist (argsortAsc ds) :=
    sublist_pair_of_sorted (argsortAsc ds) (argsortAsc_sorted ds) hi hjm hnr (by omega)
  have := hsub.reverse
  simpa using this

/-- One annotation record of the peak summary. -/
structure Row where
  file : String
  mode : String
  guess : Option ℚ
  peak : ℚ
  tr : ℚ
deriving DecidableEq, Repr

/-- The wavenumber column of a loaded curve. -/
def curveWn (rows : List (ℚ × ℚ)) : List ℚ := rows.map (fun p => p.1)

/-- The transmittance column of a loaded curve. -/
def curveTr (rows : List (ℚ × ℚ)) : List ℚ := rows.map (fun p => p.2)

/-- Depths `1 - tr` at the detected minima. -/
def curveDepths (tr : List ℚ) (pk : List Nat) : List ℚ := pk.map (fun m => 1 - tr.getD m 0)

/-- The guess-mode annotation for guess `g`: nearest detected minimum. -/
def guessRow (name : String) (wn tr : List ℚ) (pk : List Nat) (g : ℚ) : Row :=
  { file := name, mode := "guess", guess := some g,
    peak := wn.getD (pk.getD (nearestIndex (pk.map (fun m => wn.getD m 0)) g) 0) 0,
    tr := tr.getD (pk.getD (nearestIndex (pk.map (fun m => wn.getD m 0)) g) 0) 0 }

/-- The auto-mode annotation for selection-order entry `oi`. -/
def autoRow (name : String) (wn tr : List ℚ) (pk : List Nat) (oi : Nat) : Row :=
  { file := name, mode := "auto", guess := none,
    peak := wn.getD (pk.getD oi 0) 0,
    tr := tr.getD (pk.getD oi 0) 0 }

/-- Embedding of the per-curve annotation block of the main loop: guess mode
when guesses are configured, else top-N by depth. -/
def annotateCurve (gs : Option (List ℚ)) (ppc : Int) (prom : ℚ) (name : String)
    (rows : List (ℚ × ℚ)) : List Row :=
  match gs with
  | some gl =>
    gl.filterMap (fun g =>
      if findMinima (curveWn rows) (curveTr rows) prom = [] then none
      else some (guessRow name (curveWn rows) (curveTr rows)
        (findMinima (curveWn rows) (curveTr rows) prom) g))
  | none =>
    if findMinima (curveWn rows) (curveTr rows) prom ≠ [] ∧ 0 < ppc then
      (autoOrder (curveDepths (curveTr rows) (findMinima (curveWn rows) (curveTr rows) prom))
        ppc).map
        (autoRow name (curveWn rows) (curveTr rows)
          (findMinima (curveWn rows) (curveTr rows) prom))
    else []

/-- The curve files sorted by lowercased name, as `sorted(..., key=...)`. -/
def sortCurves (files : List (String × String)) : List (String × String) :=
  List.insertionSort
    (fun a b => charListLe (a.1.data.map charLower) (b.1.data.map charLower) = true) files

/-- A curve's samples sorted by descending wavenumber
(`sort_values("wavenumber", ascending=False)`). -/
def sortRows (rows : List (ℚ × ℚ)) : List (ℚ × ℚ) :=
  List.insertionSort (fun a b => b.1 ≤ a.1) rows

/-- The ways the script can halt. -/
inductive RunError where
  | inputDirUnset : RunError
  | noCsvFiles : RunError
  | parseFailure : String → RunError
deriving DecidableEq, Repr

/-- Load every file, halting on the first parse failure, as the main loading
loop does. -/
def loadCurves : List (String × String) → Except RunError (List (String × List (ℚ × ℚ)))
  | [] => Except.ok []
  | (name, content) :: rest =>
    match readCsvAny content with
    | none => Except.error (RunError.parseFailure name)
    | some rows =>
      match loadCurves rest with
      | Except.error e => Except.error e
      | Except.ok curves => Except.ok ((name, sortRows rows) :: curves)

/-- Vertical offsets: curve `i` of `n` (1-indexed) sits at `(n - i) * step`. -/
def offsetsOf (n : Nat) (step : ℚ) : List ℚ :=
  (List.range n).map (fun i0 => ((n - (i0 + 1) : Nat) : ℚ) * step)

/-- Join character chunks with a separator. -/
def sepJoin (sep : List Char) : List (List Char) → List Char
  | [] => []
  | [x] => x
  | x :: y :: t => x ++ sep ++ sepJoin sep (y :: t)

/-- Does a field need CSV quoting? -/
def hasSpecial (cs : List Char) : Bool := cs.any (fun c => c = ',' || c = '"' || c = '\n')

/-- Double every quote character. -/
def escQuotes : List Char → List Char
  | [] => []
  | c :: t => if c = '"' then '"' :: '"' :: escQuotes t else c :: escQuotes t

/-- Minimal CSV quoting of one field, as `to_csv` emits it. -/
def encodeField (s : String) : List Char :=
  if hasSpecial s.data then '"' :: (escQuotes s.data ++ ['"']) else s.data

/-- The textual fields of one summary row. -/
def rowFields (r : Row) : List String :=
  [r.file, r.mode, r.guess.elim "" (fun g => printNum g), printNum r.peak, printNum r.tr]

/-- The header of the peak summary. -/
def headerFields : List String := ["file", "mode", "guess_cm-1", "peak_cm-1", "transmittance"]

/-- One encoded CSV record. -/
def recordChars (fields : List String) : List Char := sepJoin [','] (fields.map encodeField)

/-- Embedding of `df_peaks.to_csv(..., index=False)`: header then one line
per annotation record. -/
def writeSummary (rows : List Row) : String :=
  String.mk (((headerFields :: rows.map rowFields).map
    (fun fs => recordChars fs ++ ['\n'])).flatten)

/-- Scan a quoted CSV field after its opening quote. -/
def scanQ : List Char → List Char → Option (List Char × List Char)
  | acc, '"' :: '"' :: t => scanQ (acc ++ ['"']) t
  | acc, '"' :: t => some (acc, t)
  | acc, c :: t => scanQ (acc ++ [c]) t
  | _, [] => none

/-- Scan an unquoted CSV field: up to the next separator or record end. -/
def scanU : List Char → List Char → List Char × List Char
  | acc, [] => (acc, [])
  | acc, c :: t => if c = ',' ∨ c = '\n' then (acc, c :: t) else scanU (acc ++ [c]) t

/-- Parse one CSV field, quoted or raw. -/
def parseOneField : List Char → Option (List Char × List Char)
  | '"' :: t => scanQ [] t
  | cs => some (scanU [] cs)

/-- Parse the fields of one CSV record, consuming the record terminator. -/
def parseRecordAux : Nat → List Char → Option (List (List Char) × List Char)
  | 0, _ => none
  | f + 1, cs =>
    match parseOneField cs with
    | none => none
    | some (fld, rest) =>
      match rest with
      | [] => some ([fld], [])
      | '\n' :: r => some ([fld], r)
      | ',' :: r =>
        match parseRecordAux f r with
        | none => none
        | some (flds, rest2) => some (fld :: flds, rest2)
      | _ => none

/-- Parse a whole CSV stream into records. -/
def parseRecordsAux : Nat → List Char → Option (List (List (List Char)))
  | _, [] => some []
  | 0, _ => none
  | f + 1, cs =>
    match parseRecordAux (cs.length + 1) cs with
    | none => none
    | some (flds, rest) =>
      match parseRecordsAux f rest with
      | none => none
      | some rs => some (flds :: rs)

/-- Decode one summary record back into a `Row`. -/
def decodeRow (flds : List (List Char)) : Option Row :=
  match flds with
  | [f, m, g, p, t] =>
    (parseNum (String.mk p)).bind (fun pq =>
      (parseNum (String.mk t)).bind (fun tq =>
        if g = [] then
          some { file := String.mk f, mode := String.mk m, guess := none, peak := pq, tr := tq }
        else
          (parseNum (String.mk g)).map (fun gq =>
            { file := String.mk f, mode := String.mk m, guess := some gq,
              peak := pq, tr := tq })))
  | _ => none

/-- Decode a list of records. -/
def rowsDecode : List (List (List Char)) → Option (List Row)
  | [] => some []
  | r :: t =>
    (decodeRow r).bind (fun row => (rowsDecode t).map (fun rest => row :: rest))

/-- Embedding of reading the peak summary back with `read_csv`. -/
def readSummary (s : String) : Option (List Row) :=
  (parseRecordsAux (s.data.length + 1) s.data).bind (fun recs =>
    match recs with
    | [] => none
    | h :: rest =>
      if h = headerFields.map (fun fld => fld.data) then rowsDecode rest else none)

instance {e a : Type} [DecidableEq e] [DecidableEq a] : DecidableEq (Except e a) := fun x y =>
  match x, y with
  | Except.ok v, Except.ok w =>
    if h : v = w then isTrue (by rw [h]) else isFalse (by intro hh; cases hh; exact h rfl)
  | Except.ok _, Except.error _ => isFalse (by intro hh; cases hh)
  | Except.error u, Except.error w =>
    if h : u = w then isTrue (by rw [h]) else isFalse (by intro hh; cases hh; exact h rfl)
  | Except.error _, Except.ok _ => isFalse (by intro hh; cases hh)

/-- The observable outcome of one successful run. -/
structure RunOutput where
  curves : List (String × List (ℚ × ℚ))
  offsets : List ℚ
  rows : List Row
  summary : Option String
deriving DecidableEq, Repr

/-- The output record assembled from the loaded curves. -/
def runOutputOf (offsetStep prom : ℚ) (ppc : Int) (guessRaw : String)
    (curves : List (String × List (ℚ × ℚ))) : RunOutput :=
  { curves := curves
    offsets := offsetsOf curves.length offsetStep
    rows := (curves.map
      (fun c => annotateCurve (parseGuesses guessRaw) ppc prom c.1 c.2)).flatten
    summary :=
      if (curves.map
          (fun c => annotateCurve (parseGuesses guessRaw) ppc prom c.1 c.2)).flatten = []
      then none
      else some (writeSummary ((curves.map
        (fun c => annotateCurve (parseGuesses guessRaw) ppc prom c.1 c.2)).flatten)) }

/-- Embedding of the whole script: configuration checks, loading, annotation,
offsets and summary writing. -/
def runProgram (inputDir : String) (offsetStep prom : ℚ) (ppc : Int) (guessRaw : String)
    (files : List (String × String)) : Except RunError RunOutput :=
  if trimChars inputDir.data = [] then Except.error RunError.inputDirUnset
  else if files = [] then Except.error RunError.noCsvFiles
  else
    Except.map (runOutputOf offsetStep prom ppc guessRaw) (loadCurves (sortCurves files))

theorem getD_decimal {l : List ℚ} (hl : ∀ v ∈ l, DecimalRat v) (i : Nat) :
    DecimalRat (l.getD i 0) := by
  by_cases hi : i < l.length
  · rw [List.getD_eq_getElem _ _ hi]
    exact hl _ (List.getElem_mem hi)
  · rw [List.getD_eq_default _ _ (by omega)]
    exact ⟨0, by norm_num⟩

theorem autoOrder_length (ds : List ℚ) (ppc : Int) :
    (autoOrder ds ppc).length = min ppc.toNat ds.length := by
  rw [autoOrder, List.length_take, List.length_reverse, (argsortAsc_perm ds).length_eq,
    List.length_range]

theorem autoOrder_mem (ds : List ℚ) (ppc : Int) : ∀ a ∈ autoOrder ds ppc, a < ds.length := by
  intro a ha
  rw [autoOrder] at ha
  have h1 : a ∈ (argsortAsc ds).reverse := List.mem_of_mem_take ha
  rw [List.mem_reverse] at h1
  exact (argsortAsc_mem ds a).mp h1

theorem autoOrder_pairwise (ds : List ℚ) (ppc : Int) :
    List.Pairwise (fun a b => ds.getD b 0 ≤ ds.getD a 0) (autoOrder ds ppc) := by
  have h1 : List.Pairwise (fun a b => ds.getD a 0 ≤ ds.getD b 0) (argsortAsc ds) := by
    refine (argsortAsc_sorted ds).imp ?_
    intro a b hab
    rcases hab with h | ⟨h, _⟩
    · exact le_of_lt h
    · exact le_of_eq h
  have h2 : List.Pairwise (fun a b => ds.getD b 0 ≤ ds.getD a 0) (argsortAsc ds).reverse :=
    List.pairwise_reverse.mpr h1
  exact h2.sublist (List.take_sublist _ _)

theorem depths_getD (tr : List ℚ) (pk : List Nat) (oi : Nat) (h : oi < pk.length) :
    (curveDepths tr pk).getD oi 0 = 1 - tr.getD (pk.getD oi 0) 0 := by
  rw [curveDepths, List.getD_eq_getElem _ _ (by simpa using h), List.getElem_map,
    List.getD_eq_getElem _ _ h]

theorem curveDepths_length (tr : List ℚ) (pk : List Nat) :
    (curveDepths tr pk).length = pk.length := by
  simp [curveDepths]

theorem annotateCurve_auto (ppc : Int) (prom : ℚ) (name : String) (rows : List (ℚ × ℚ))
    (h1 : findMinima (curveWn rows) (curveTr rows) prom ≠ []) (h2 : 0 < ppc) :
    annotateCurve none ppc prom name rows =
      (autoOrder (curveDepths (curveTr rows) (findMinima (curveWn rows) (curveTr rows) prom))
        ppc).map
        (autoRow name (curveWn rows) (curveTr rows)
          (findMinima (curveWn rows) (curveTr rows) prom)) := by
  rw [annotateCurve, if_pos ⟨h1, h2⟩]

theorem annotateCurve_auto_nil (ppc : Int) (prom : ℚ) (name : String) (rows : List (ℚ × ℚ))
    (h : ppc ≤ 0 ∨ findMinima (curveWn rows) (curveTr rows) prom = []) :
    annotateCurve none ppc prom name rows = [] := by
  rw [annotateCurve, if_neg]
  intro hc
  rcases h with h | h
  · omega
  · exact hc.1 h

theorem annotateCurve_guess (gl : List ℚ) (ppc : Int) (prom : ℚ) (name : String)
    (rows : List (ℚ × ℚ)) (h : findMinima (curveWn rows) (curveTr rows) prom ≠ []) :
    annotateCurve (some gl) ppc prom name rows =
      gl.map (guessRow name (curveWn rows) (curveTr rows)
        (findMinima (curveWn rows) (curveTr rows) prom)) := by
  rw [annotateCurve]
  simp only [if_neg h]
  exact List.filterMap_eq_map _ ▸ rfl

theorem annotateCurve_guess_nil (gl : List ℚ) (ppc : Int) (prom : ℚ) (name : String)
    (rows : List (ℚ × ℚ)) (h : findMinima (curveWn rows) (curveTr rows) prom = []) :
    annotateCurve (some gl) ppc prom name rows = [] := by
  rw [annotateCurve]
  simp [h]

theorem annotateCurve_no_minima (gs : Option (List ℚ)) (ppc : Int) (prom : ℚ) (name : String)
    (rows : List (ℚ × ℚ)) (h : findMinima (curveWn rows) (curveTr rows) prom = []) :
    annotateCurve gs ppc prom name rows = [] := by
  cases gs with
  | none => exact annotateCurve_auto_nil ppc prom name rows (Or.inr h)
  | some gl => exact annotateCurve_guess_nil gl ppc prom name rows h

/-- Claim C1 counterexample curve: two minima of equal depth. -/
def cexRows : List (ℚ × ℚ) := [(5, 1), (4, 1/2), (3, 1), (2, 1/2), (1, 1)]

theorem guessRow_nearest (name : String) (wn tr : List ℚ) (pk : List Nat) (g : ℚ)
    (h : pk ≠ []) :
    ∃ k ∈ pk, (guessRow name wn tr pk g).peak = wn.getD k 0 ∧
      (guessRow name wn tr pk g).tr = tr.getD k 0 ∧
      ∀ m ∈ pk, |wn.getD k 0 - g| ≤ |wn.getD m 0 - g| := by
  have hys : ∀ ii, ii < pk.length →
      ((pk.map (fun m => wn.getD m 0)).map (fun t => |t - g|)).getD ii 0 =
        |wn.getD (pk.getD ii 0) 0 - g| := by
    intro ii hii
    rw [List.getD_eq_getElem _ _ (by simpa using hii), List.getElem_map, List.getElem_map,
      List.getD_eq_getElem _ _ hii]
  have hlen : ((pk.map (fun m => wn.getD m 0)).map (fun t => |t - g|)).length = pk.length := by
    simp
  have hne : (pk.map (fun m => wn.getD m 0)).map (fun t => |t - g|) ≠ [] := by
    simp [h]
  have hj : nearestIndex (pk.map (fun m => wn.getD m 0)) g < pk.length := by
    rw [nearestIndex, ← hlen]
    exact argminIdx_lt _ hne
  refine ⟨pk.getD (nearestIndex (pk.map (fun m => wn.getD m 0)) g) 0, ?_, rfl, rfl, ?_⟩
  · rw [List.getD_eq_getElem _ _ hj]
    exact List.getElem_mem hj
  · intro m hm
    obtain ⟨jm, hjm, hjme⟩ := List.mem_iff_getElem.mp hm
    have h1 := argminIdx_min ((pk.map (fun m => wn.getD m 0)).map (fun t => |t - g|)) jm
      (by omega)
    rw [nearestIndex] at hj
    rw [hys _ hj, hys jm hjm] at h1
    rw [nearestIndex]
    have : pk.getD jm 0 = m := by rw [List.getD_eq_getElem _ _ hjm, hjme]
    rw [← this]
    exact h1

/-- Claim C2: in guess mode, every configured guess on a curve with at
least one detected minimum yields exactly the annotation of the detected
minimum whose wavenumber is closest to the guess (no other detected
minimum is strictly closer), and a curve with no detected minima yields no
annotation and no error. -/
theorem claim_C2 (gl : List ℚ) (ppc : Int) (prom : ℚ) (name : String) (rows : List (ℚ × ℚ)) :
    (findMinima (curveWn rows) (curveTr rows) prom ≠ [] →
      annotateCurve (some gl) ppc prom name rows =
        gl.map (guessRow name (curveWn rows) (curveTr rows)
          (findMinima (curveWn rows) (curveTr rows) prom)) ∧
      ∀ g ∈ gl, ∃ k ∈ findMinima (curveWn rows) (curveTr rows) prom,
        (guessRow name (curveWn rows) (curveTr rows)
          (findMinima (curveWn rows) (curveTr rows) prom) g).peak = (curveWn rows).getD k 0 ∧
        ∀ m ∈ findMinima (curveWn rows) (curveTr rows) prom,
          |(curveWn rows).getD k 0 - g| ≤ |(curveWn rows).getD m 0 - g|) ∧
    (findMinima (curveWn rows) (curveTr rows) prom = [] →
      annotateCurve (some gl) ppc prom name rows = []) := by
  constructor
  · intro h
    refine ⟨annotateCurve_guess gl ppc prom name rows h, ?_⟩
    intro g _
    obtain ⟨k, hk, hpeak, _, hmin⟩ :=
      guessRow_nearest name (curveWn rows) (curveTr rows)
        (findMinima (curveWn rows) (curveTr rows) prom) g h
    exact ⟨k, hk, hpeak, hmin⟩
  · exact annotateCurve_guess_nil gl ppc prom name rows

theorem claim_C2_witness :
    annotateCurve (some [(3 : ℚ)]) 5 (1/10) "f" cexRows =
      [(3 : ℚ)].map (guessRow "f" (curveWn cexRows) (curveTr cexRows)
        (findMinima (curveWn cexRows) (curveTr cexRows) (1/10))) :=
  ((claim_C2 [(3 : ℚ)] 5 (1/10) "f" cexRows).1 (by decide)).1

/-- Claim C3: in auto mode the number of annotations is
`min(PeaksPerCurve, number of detected minima)`, their depths `1 - tr` are
non-increasing in selection order, and a non-positive `PeaksPerCurve` or an
empty detection yields no annotations. -/
theorem claim_C3 (ppc : Int) (prom : ℚ) (name : String) (rows : List (ℚ × ℚ)) :
    (0 < ppc → (annotateCurve none ppc prom name rows).length =
      min ppc.toNat (findMinima (curveWn rows) (curveTr rows) prom).length) ∧
    List.Pairwise (fun a b => 1 - b.tr ≤ 1 - a.tr) (annotateCurve none ppc prom name rows) ∧
    ((ppc ≤ 0 ∨ findMinima (curveWn rows) (curveTr rows) prom = []) →
      annotateCurve none ppc prom name rows = []) := by
  refine ⟨?_, ?_, annotateCurve_auto_nil ppc prom name rows⟩
  · intro h2
    by_cases hpk : findMinima (curveWn rows) (curveTr rows) prom = []
    · rw [annotateCurve_auto_nil ppc prom name rows (Or.inr hpk), hpk]
      simp
    · rw [annotateCurve_auto ppc prom name rows hpk h2, List.length_map, autoOrder_length,
        curveDepths_length]
  · by_cases hpk : findMinima (curveWn rows) (curveTr rows) prom = []
    · rw [annotateCurve_auto_nil ppc prom name rows (Or.inr hpk)]
      exact List.Pairwise.nil
    · by_cases h2 : 0 < ppc
      · rw [annotateCurve_auto ppc prom name rows hpk h2]
        rw [List.pairwise_map]
        have hpw := autoOrder_pairwise
          (curveDepths (curveTr rows) (findMinima (curveWn rows) (curveTr rows) prom)) ppc
        refine hpw.imp_of_mem ?_
        intro a b ha hb hab
        have hal := autoOrder_mem _ ppc a ha
        have hbl := autoOrder_mem _ ppc b hb
        rw [curveDepths_length] at hal hbl
        have hda := depths_getD (curveTr rows)
          (findMinima (curveWn rows) (curveTr rows) prom) a hal
        have hdb := depths_getD (curveTr rows)
          (findMinima (curveWn rows) (curveTr rows) prom) b hbl
        show 1 - (autoRow name (curveWn rows) (curveTr rows) _ b).tr ≤
          1 - (autoRow name (curveWn rows) (curveTr rows) _ a).tr
        rw [autoRow, autoRow]
        rw [← hda, ← hdb] at *
        exact hab
      · rw [annotateCurve_auto_nil ppc prom name rows (Or.inl (by omega))]
        exact List.Pairwise.nil

theorem claim_C3_witness :
    (annotateCurve none 1 (1/10) "f" cexRows).length =
      min (1 : Int).toNat (findMinima (curveWn cexRows) (curveTr cexRows) (1/10)).length :=
  (claim_C3 1 (1/10) "f" cexRows).1 (by decide)

/-- Claim C1 counterexample: on a five-sample curve with two detected
minima of equal depth and one peak allowed, the annotation selects the
second-encountered minimum (wavenumber 2), not the first-encountered one
(wavenumber 4), refuting first-encountered-wins as stated. -/
theorem claim_C1_counterexample :
    findMinima (curveWn cexRows) (curveTr cexRows) (1/10) = [1, 3] ∧
    curveDepths (curveTr cexRows) [1, 3] = [1/2, 1/2] ∧
    annotateCurve none 1 (1/10) "f" cexRows =
      [{ file := "f", mode := "auto", guess := none, peak := 2, tr := 1/2 }] ∧
    ({ file := "f", mode := "auto", guess := none, peak := 4, tr := 1/2 } : Row) ∉
      annotateCurve none 1 (1/10) "f" cexRows := by
  decide

/-- Claim C1 (amended): in auto mode, ties in depth are not broken by
original detection order. The sort is `np.argsort` with its default
unstable quicksort, so for large tied groups the program fixes no order;
on a curve with fewer than 16 detected minima — where that sort is an
insertion sort and hence stable — the `[::-1]` reversal flips each tied
group, so among equal-depth minima the last-encountered one is selected
first, the selection order being a prefix of the reversed order. -/
theorem claim_C1_amended (ds : List ℚ) (ppc : Int) (i j : Nat) (hij : i < j)
    (hj : j < ds.length) (htie : ds.getD i 0 = ds.getD j 0) (hlen : ds.length < 16) :
    [j, i].Sublist ((argsortAsc ds).reverse) ∧
      autoOrder ds ppc = ((argsortAsc ds).reverse).take ppc.toNat :=
  ⟨argsortAsc_tie_reversed ds i j hij hj htie, rfl⟩

theorem claim_C1_amended_witness :
    [1, 0].Sublist ((argsortAsc [1/2, 1/2]).reverse) :=
  (claim_C1_amended [1/2, 1/2] 1 0 1 (by decide) (by decide) (by decide) (by decide)).1

/-- Claim C4: the loader tries the comma delimiter first, retries with the
semicolon exactly when that attempt fails or yields fewer than two columns,
and the cleaning step keeps the first two cells of each row, replaces
decimal commas before numeric parsing, turns non-parseable cells into
missing values and drops every row with a missing value. -/
theorem claim_C4 :
    (∀ c cols rows2, parseCsv ',' c = some (cols, rows2) → 2 ≤ cols →
      readCsvAny c = some (clean rows2)) ∧
    (∀ c cols rows2, parseCsv ',' c = some (cols, rows2) → cols < 2 →
      readCsvAny c = readFallback c) ∧
    (∀ c, parseCsv ',' c = none → readCsvAny c = readFallback c) ∧
    (∀ c cols rows2, parseCsv ';' c = some (cols, rows2) → 2 ≤ cols →
      readFallback c = some (clean rows2)) ∧
    (∀ c cols rows2, parseCsv ';' c = some (cols, rows2) → cols < 2 →
      readFallback c = none) ∧
    (∀ c, parseCsv ';' c = none → readFallback c = none) ∧
    (∀ rows2, clean rows2 = cleanSpec rows2) ∧
    (∀ s, cellToNum s =
      parseNum (String.mk (s.data.map (fun ch => if ch = ',' then '.' else ch)))) := by
  refine ⟨?_, ?_, ?_, ?_, ?_, ?_, clean_eq_cleanSpec, fun s => rfl⟩
  · intro c cols rows2 h hc
    rw [readCsvAny, h]
    simp only [Option.elim]
    rw [if_pos hc]
  · intro c cols rows2 h hc
    rw [readCsvAny, h]
    simp only [Option.elim]
    rw [if_neg (by omega)]
  · intro c h
    rw [readCsvAny, h]
    rfl
  · intro c cols rows2 h hc
    rw [readFallback, h, Option.some_bind, if_pos hc]
  · intro c cols rows2 h hc
    rw [readFallback, h, Option.some_bind, if_neg (by omega)]
  · intro c h
    rw [readFallback, h]
    rfl

theorem claim_C4_witness :
    readCsvAny "a,b\n1,2\nx,3\n" = some (clean [["1", "2"], ["x", "3"]]) ∧
    readCsvAny "a;b\n1;2\n" = readFallback "a;b\n1;2\n" ∧
    readCsvAny "a\nb,c\n" = readFallback "a\nb,c\n" ∧
    readFallback "a;b\n1;2\n" = some (clean [["1", "2"]]) :=
  ⟨claim_C4.1 _ 2 [["1", "2"], ["x", "3"]] (by decide) (by decide),
   claim_C4.2.1 _ 1 [["1;2"]] (by decide) (by decide),
   claim_C4.2.2.1 _ (by decide),
   claim_C4.2.2.2.1 _ 2 [["1", "2"]] (by decide) (by decide)⟩

theorem exceptMap_error {e a b : Type} (f : a → b) (err : e) :
    Except.map f (Except.error err : Except e a) = Except.error err := rfl

theorem exceptMap_ok {e a b : Type} (f : a → b) (v : a) :
    Except.map f (Except.ok v : Except e a) = Except.ok (f v) := rfl

theorem loadCurves_error_iff : ∀ l : List (String × String),
    (∃ e, loadCurves l = Except.error e) ↔ ∃ p ∈ l, readCsvAny p.2 = none := by
  intro l
  induction l with
  | nil =>
    simp [loadCurves]
  | cons p rest ih =>
    obtain ⟨name, content⟩ := p
    rw [loadCurves]
    rcases hr : readCsvAny content with _ | rows
    · simp only []
      constructor
      · intro _
        exact ⟨(name, content), List.mem_cons_self _ _, hr⟩
      · intro _
        exact ⟨RunError.parseFailure name, rfl⟩
    · simp only []
      rcases hl : loadCurves rest with e | curves
      · simp only []
        constructor
        · intro _
          obtain ⟨q, hq, hqn⟩ := ih.mp ⟨e, hl⟩
          exact ⟨q, List.mem_cons_of_mem _ hq, hqn⟩
        · intro _
          exact ⟨e, rfl⟩
      · simp only []
        constructor
        · intro ⟨e2, he2⟩
          exact absurd he2 (by simp)
        · intro ⟨q, hq, hqn⟩
          rcases List.mem_cons.mp hq with hq1 | hq2
          · subst hq1
            simp only [] at hqn
            rw [hqn] at hr
            exact absurd hr (by simp)
          · obtain ⟨e2, he2⟩ := ih.mpr ⟨q, hq2, hqn⟩
            rw [he2] at hl
            exact absurd hl (by simp)

theorem sortCurves_perm (files : List (String × String)) :
    (sortCurves files).Perm files := List.perm_insertionSort _ _

theorem sortCurves_mem_iff (files : List (String × String)) (p : String × String) :
    p ∈ sortCurves files ↔ p ∈ files := (sortCurves_perm files).mem_iff

/-- Claim C5: the run halts with an error exactly when the input directory
is unset, no CSV files were found, or some file fails both delimiter
attempts; a parse failure propagates (no per-file skip), and no output is
produced on an error. -/
theorem claim_C5 (dir : String) (step prom : ℚ) (ppc : Int) (graw : String)
    (files : List (String × String)) :
    ((∃ e, runProgram dir step prom ppc graw files = Except.error e) ↔
      (trimChars dir.data = [] ∨ files = [] ∨ ∃ f ∈ files, readCsvAny f.2 = none)) ∧
    (∀ out, runProgram dir step prom ppc graw files = Except.ok out →
      trimChars dir.data ≠ [] ∧ files ≠ [] ∧ ∀ f ∈ files, readCsvAny f.2 ≠ none) := by
  by_cases h1 : trimChars dir.data = []
  · rw [runProgram, if_pos h1]
    exact ⟨⟨fun _ => Or.inl h1, fun _ => ⟨RunError.inputDirUnset, rfl⟩⟩,
      fun out hout => absurd hout (by simp)⟩
  · by_cases h2 : files = []
    · rw [runProgram, if_neg h1, if_pos h2]
      exact ⟨⟨fun _ => Or.inr (Or.inl h2), fun _ => ⟨RunError.noCsvFiles, rfl⟩⟩,
        fun out hout => absurd hout (by simp)⟩
    · rw [runProgram, if_neg h1, if_neg h2]
      rcases hl : loadCurves (sortCurves files) with e | curves
      · rw [exceptMap_error]
        obtain ⟨q, hq, hqn⟩ := (loadCurves_error_iff (sortCurves files)).mp ⟨e, hl⟩
        rw [sortCurves_mem_iff] at hq
        exact ⟨⟨fun _ => Or.inr (Or.inr ⟨q, hq, hqn⟩), fun _ => ⟨e, rfl⟩⟩,
          fun out hout => absurd hout (by simp)⟩
      · rw [exceptMap_ok]
        constructor
        · constructor
          · intro ⟨e2, he2⟩
            exact absurd he2 (by simp)
          · intro hcond
            rcases hcond with hc | hc | ⟨f, hf, hfn⟩
            · exact absurd hc h1
            · exact absurd hc h2
            · obtain ⟨e2, he2⟩ := (loadCurves_error_iff (sortCurves files)).mpr
                ⟨f, (sortCurves_mem_iff files f).mpr hf, hfn⟩
              rw [he2] at hl
              exact absurd hl (by simp)
        · intro out _
          refine ⟨h1, h2, ?_⟩
          intro f hf hfn
          obtain ⟨e2, he2⟩ := (loadCurves_error_iff (sortCurves files)).mpr
            ⟨f, (sortCurves_mem_iff files f).mpr hf, hfn⟩
          rw [he2] at hl
          exact absurd hl (by simp)

theorem claim_C5_witness :
    (∃ e, runProgram "" 1 1 1 "" [("a.csv", "w,t\n1,2\n")] = Except.error e) ∧
    (∃ e, runProgram "d" 1 1 1 "" ([] : List (String × String)) = Except.error e) ∧
    (∃ e, runProgram "d" 1 1 1 "" [("a.csv", "w,t\n1,2\n"), ("b.csv", "x\ny,z\n")] =
      Except.error e) :=
  ⟨((claim_C5 "" 1 1 1 "" [("a.csv", "w,t\n1,2\n")]).1).mpr (Or.inl (by decide)),
   ((claim_C5 "d" 1 1 1 "" []).1).mpr (Or.inr (Or.inl rfl)),
   ((claim_C5 "d" 1 1 1 "" [("a.csv", "w,t\n1,2\n"), ("b.csv", "x\ny,z\n")]).1).mpr
     (Or.inr (Or.inr ⟨("b.csv", "x\ny,z\n"), by decide, by decide⟩))⟩

/-- Claim C6: malformed `TARGET_GUESSES` tokens are silently dropped, an
empty resulting list resolves to auto mode, and a string resolving to auto
mode makes the run behave exactly as with the variable unset. -/
theorem claim_C6 (s : String) :
    ((guessTokens s).filterMap parseNum = [] → parseGuesses s = none) ∧
    (∀ gs, parseGuesses s = some gs →
      gs = (guessTokens s).filterMap parseNum ∧ gs ≠ []) ∧
    (∀ dir step prom ppc files, parseGuesses s = none →
      runProgram dir step prom ppc s files = runProgram dir step prom ppc "" files) := by
  refine ⟨?_, ?_, ?_⟩
  · intro h
    rw [parseGuesses]
    by_cases h1 : trimChars s.data = []
    · rw [if_pos h1]
    · rw [if_neg h1, if_pos h]
  · intro gs h
    rw [parseGuesses] at h
    by_cases h1 : trimChars s.data = []
    · rw [if_pos h1] at h
      exact absurd h (by simp)
    · rw [if_neg h1] at h
      by_cases h2 : (guessTokens s).filterMap parseNum = []
      · rw [if_pos h2] at h
        exact absurd h (by simp)
      · rw [if_neg h2, Option.some_inj] at h
        exact ⟨h.symm, h ▸ h2⟩
  · intro dir step prom ppc files h
    have hempty : parseGuesses "" = none := rfl
    have hro : runOutputOf step prom ppc s = runOutputOf step prom ppc "" :=
      funext fun curves => by rw [runOutputOf, runOutputOf, h, hempty]
    rw [runProgram, runProgram, hro]

theorem claim_C6_witness :
    parseGuesses "abc, ;x" = none ∧
    runProgram "d" 1 1 1 "abc, ;x" [("a.csv", "w,t\n1,2\n")] =
      runProgram "d" 1 1 1 "" [("a.csv", "w,t\n1,2\n")] :=
  ⟨(claim_C6 "abc, ;x").1 (by decide),
   (claim_C6 "abc, ;x").2.2 "d" 1 1 1 [("a.csv", "w,t\n1,2\n")]
     ((claim_C6 "abc, ;x").1 (by decide))⟩

theorem charListLe_total : ∀ x y : List Char, charListLe x y = true ∨ charListLe y x = true := by
  intro x
  induction x with
  | nil => intro y; exact Or.inl rfl
  | cons a s ih =>
    intro y
    cases y with
    | nil => exact Or.inr rfl
    | cons b t =>
      rw [charListLe, charListLe]
      rcases Nat.lt_trichotomy a.toNat b.toNat with h | h | h
      · left
        rw [if_pos h]
      · rw [if_neg (by omega), if_neg (by omega), if_neg (by omega), if_neg (by omega)]
        exact ih t
      · right
        rw [if_pos h]

theorem charListLe_trans : ∀ x y z : List Char, charListLe x y = true → charListLe y z = true →
    charListLe x z = true := by
  intro x
  induction x with
  | nil => intro y z _ _; rfl
  | cons a s ih =>
    intro y z hxy hyz
    cases y with
    | nil => rw [charListLe] at hxy; exact absurd hxy (by simp)
    | cons b t =>
      cases z with
      | nil => rw [charListLe] at hyz; exact absurd hyz (by simp)
      | cons c u =>
        rw [charListLe] at hxy hyz ⊢
        by_cases h1 : a.toNat < b.toNat
        · by_cases h2 : b.toNat < c.toNat
          · rw [if_pos (by omega)]
          · rw [if_neg h2] at hyz
            by_cases h3 : c.toNat < b.toNat
            · rw [if_pos h3] at hyz
              exact absurd hyz (by simp)
            · rw [if_pos (by omega)]
        · rw [if_neg h1] at hxy
          by_cases h1b : b.toNat < a.toNat
          · rw [if_pos h1b] at hxy
            exact absurd hxy (by simp)
          · rw [if_neg h1b] at hxy
            by_cases h2 : b.toNat < c.toNat
            · rw [if_pos (by omega)]
            · rw [if_neg h2] at hyz
              by_cases h3 : c.toNat < b.toNat
              · rw [if_pos h3] at hyz
                exact absurd hyz (by simp)
              · rw [if_neg h3] at hyz
                rw [if_neg (by omega), if_neg (by omega)]
                exact ih t u hxy hyz

theorem sortCurves_sorted (files : List (String × String)) :
    List.Pairwise (fun a b : String × String =>
      charListLe (a.1.data.map charLower) (b.1.data.map charLower) = true)
      (sortCurves files) := by
  letI : IsTotal (String × String) (fun a b : String × String =>
      charListLe (a.1.data.map charLower) (b.1.data.map charLower) = true) :=
    ⟨fun a b => charListLe_total _ _⟩
  letI : IsTrans (String × String) (fun a b : String × String =>
      charListLe (a.1.data.map charLower) (b.1.data.map charLower) = true) :=
    ⟨fun a b c => charListLe_trans _ _ _⟩
  exact List.sorted_insertionSort _ files

theorem sortRows_sorted (rows : List (ℚ × ℚ)) :
    List.Pairwise (fun a b : ℚ × ℚ => b.1 ≤ a.1) (sortRows rows) := by
  letI : IsTotal (ℚ × ℚ) (fun a b : ℚ × ℚ => b.1 ≤ a.1) := ⟨fun a b => le_total b.1 a.1⟩
  letI : IsTrans (ℚ × ℚ) (fun a b : ℚ × ℚ => b.1 ≤ a.1) :=
    ⟨fun a b c hab hbc => le_trans hbc hab⟩
  exact List.sorted_insertionSort _ rows

theorem sortRows_perm (rows : List (ℚ × ℚ)) : (sortRows rows).Perm rows :=
  List.perm_insertionSort _ _

theorem loadCurves_ok_spec : ∀ (l : List (String × String)) curves,
    loadCurves l = Except.ok curves →
    curves.length = l.length ∧
    ∀ c ∈ curves, ∃ content rows0, (c.1, content) ∈ l ∧ readCsvAny content = some rows0 ∧
      c.2 = sortRows rows0 := by
  intro l
  induction l with
  | nil =>
    intro curves h
    rw [loadCurves] at h
    rw [Except.ok.injEq] at h
    subst h
    exact ⟨rfl, by simp⟩
  | cons p rest ih =>
    intro curves h
    obtain ⟨name, content⟩ := p
    rw [loadCurves] at h
    rcases hr : readCsvAny content with _ | rows0 <;> rw [hr] at h
    · exact absurd h (by simp)
    · rcases hl : loadCurves rest with e | curves2 <;> rw [hl] at h
      · exact absurd h (by simp)
      · rw [Except.ok.injEq] at h
        subst h
        obtain ⟨hlen, hmem⟩ := ih curves2 hl
        refine ⟨by simp [hlen], ?_⟩
        intro c hc
        rcases List.mem_cons.mp hc with hc1 | hc2
        · subst hc1
          exact ⟨content, rows0, List.mem_cons_self _ _, hr, rfl⟩
        · obtain ⟨ct, r0, hmem2, hread, heq⟩ := hmem c hc2
          exact ⟨ct, r0, List.mem_cons_of_mem _ hmem2, hread, heq⟩

theorem loadCurves_names : ∀ (l : List (String × String)) curves,
    loadCurves l = Except.ok curves →
    curves.map (fun c => c.1) = l.map (fun p => p.1) := by
  intro l
  induction l with
  | nil =>
    intro curves h
    rw [loadCurves, Except.ok.injEq] at h
    subst h
    rfl
  | cons p rest ih =>
    intro curves h
    obtain ⟨name, content⟩ := p
    rw [loadCurves] at h
    rcases hr : readCsvAny content with _ | rows0 <;> rw [hr] at h
    · exact absurd h (by simp)
    · rcases hl : loadCurves rest with e | curves2 <;> rw [hl] at h
      · exact absurd h (by simp)
      · rw [Except.ok.injEq] at h
        subst h
        simp only [List.map_cons]
        rw [ih curves2 hl]

theorem offsetsOf_length (n : Nat) (step : ℚ) : (offsetsOf n step).length = n := by
  simp [offsetsOf]

theorem offsetsOf_getD (n : Nat) (step : ℚ) (i : Nat) (h : i < n) :
    (offsetsOf n step).getD i 0 = ((n - (i + 1) : Nat) : ℚ) * step := by
  rw [offsetsOf, List.getD_eq_getElem _ _ (by simpa using h), List.getElem_map,
    List.getElem_range]

theorem runProgram_ok_inv {dir : String} {step prom : ℚ} {ppc : Int} {graw : String}
    {files : List (String × String)} {out : RunOutput}
    (h : runProgram dir step prom ppc graw files = Except.ok out) :
    trimChars dir.data ≠ [] ∧ files ≠ [] ∧
    ∃ curves, loadCurves (sortCurves files) = Except.ok curves ∧
      out.curves = curves ∧
      out.offsets = offsetsOf curves.length step ∧
      out.rows = (curves.map
        (fun c => annotateCurve (parseGuesses graw) ppc prom c.1 c.2)).flatten ∧
      out.summary = (if (curves.map
          (fun c => annotateCurve (parseGuesses graw) ppc prom c.1 c.2)).flatten = []
        then none
        else some (writeSummary ((curves.map
          (fun c => annotateCurve (parseGuesses graw) ppc prom c.1 c.2)).flatten))) := by
  rw [runProgram] at h
  by_cases h1 : trimChars dir.data = []
  · rw [if_pos h1] at h
    exact absurd h (by simp)
  · rw [if_neg h1] at h
    by_cases h2 : files = []
    · rw [if_pos h2] at h
      exact absurd h (by simp)
    · rw [if_neg h2] at h
      rcases hl : loadCurves (sortCurves files) with e | curves <;> rw [hl] at h
      · rw [exceptMap_error] at h
        exact absurd h (by simp)
      · rw [exceptMap_ok, Except.ok.injEq] at h
        exact ⟨h1, h2, curves, rfl, by rw [← h]; rfl, by rw [← h]; rfl, by rw [← h]; rfl,
          by rw [← h]; rfl⟩

/-- Claim C7: on a successful run the curves are ordered by lowercased
filename with samples sorted by descending wavenumber, the 1-indexed curve
`i` of `n` gets offset `(n - i) * step`, the last offset is zero, and for a
positive step the first curve sits strictly highest. -/
theorem claim_C7 (dir : String) (step prom : ℚ) (ppc : Int) (graw : String)
    (files : List (String × String)) (out : RunOutput)
    (h : runProgram dir step prom ppc graw files = Except.ok out) :
    out.offsets.length = out.curves.length ∧
    (∀ i, i < out.curves.length →
      out.offsets.getD i 0 = ((out.curves.length - (i + 1) : Nat) : ℚ) * step) ∧
    out.offsets.getD (out.curves.length - 1) 0 = 0 ∧
    (0 < step → ∀ j, 0 < j → j < out.curves.length →
      out.offsets.getD j 0 < out.offsets.getD 0 0) ∧
    List.Pairwise (fun a b =>
      charListLe (a.1.data.map charLower) (b.1.data.map charLower) = true) out.curves ∧
    (∀ c ∈ out.curves, List.Pairwise (fun a b : ℚ × ℚ => b.1 ≤ a.1) c.2) := by
  obtain ⟨h1, h2, curves, hl, hc, ho, _, _⟩ := runProgram_ok_inv h
  obtain ⟨hlen, hmem⟩ := loadCurves_ok_spec _ curves hl
  have hn : out.curves.length = curves.length := by rw [hc]
  refine ⟨?_, ?_, ?_, ?_, ?_, ?_⟩
  · rw [ho, hc, offsetsOf_length]
  · intro i hi
    rw [ho, hn, offsetsOf_getD _ _ _ (hn ▸ hi)]
  · rw [ho, hn]
    by_cases hz : curves.length = 0
    · rw [hz]
      simp [offsetsOf]
    · rw [offsetsOf_getD _ _ _ (by omega)]
      rw [show curves.length - (curves.length - 1 + 1) = 0 by omega]
      simp
  · intro hstep j hj1 hj2
    rw [hn] at hj2
    rw [ho]
    rw [offsetsOf_getD _ _ _ hj2, offsetsOf_getD _ _ _ (by omega)]
    have hnat : curves.length - (j + 1) < curves.length - (0 + 1) := by omega
    have hcast : ((curves.length - (j + 1) : Nat) : ℚ) <
        ((curves.length - (0 + 1) : Nat) : ℚ) := by exact_mod_cast hnat
    exact mul_lt_mul_of_pos_right hcast hstep
  · rw [hc]
    have hkeys : List.Pairwise (fun x y : String =>
        charListLe (x.data.map charLower) (y.data.map charLower) = true)
        ((sortCurves files).map (fun p => p.1)) :=
      List.pairwise_map.mpr (sortCurves_sorted files)
    rw [← loadCurves_names _ curves hl] at hkeys
    exact List.pairwise_map.mp hkeys
  · intro c hcm
    rw [hc] at hcm
    obtain ⟨ct, r0, _, _, heq⟩ := hmem c hcm
    rw [heq]
    exact sortRows_sorted r0

def witnessFiles : List (String × String) :=
  [("a.csv", "w,t\n3,0.8\n2,0.5\n1,0.9\n")]

def witnessOut : RunOutput :=
  { curves := [("a.csv", [(3, 4/5), (2, 1/2), (1, 9/10)])]
    offsets := [0]
    rows := [{ file := "a.csv", mode := "auto", guess := none, peak := 2, tr := 1/2 }]
    summary := some "file,mode,guess_cm-1,peak_cm-1,transmittance\na.csv,auto,,2,0.5\n" }

theorem claim_C7_witness :
    witnessOut.offsets.length = witnessOut.curves.length ∧
    witnessOut.offsets.getD (witnessOut.curves.length - 1) 0 = 0 :=
  have h := claim_C7 "d" (7/40) (1/1000) 5 "" witnessFiles witnessOut (by decide)
  ⟨h.1, h.2.2.1⟩

/-- Claim C9: the detector's output indices are strictly increasing, each
is a plateau local maximum of the inverted signal with topographic
prominence at least the threshold, a monotonic or flat curve yields an
empty result, and an empty result flows through annotation without error,
producing no annotations. -/
theorem claim_C9 (wn tr : List ℚ) (τ : ℚ) :
    List.Pairwise (fun a b => a < b) (findMinima wn tr τ) ∧
    (∀ p ∈ findMinima wn tr τ,
      IsLocalMax (tr.map (fun t => 1 - t)) p ∧ PromAtLeast (tr.map (fun t => 1 - t)) p τ) ∧
    (((∀ i j, i ≤ j → j < tr.length → tr.getD i 0 ≤ tr.getD j 0) ∨
      (∀ i j, i ≤ j → j < tr.length → tr.getD j 0 ≤ tr.getD i 0)) →
        findMinima wn tr τ = []) ∧
    (∀ gs ppc name rows, findMinima (curveWn rows) (curveTr rows) τ = [] →
      annotateCurve gs ppc τ name rows = []) := by
  refine ⟨?_, ?_, findMinima_monotone_nil wn tr τ, ?_⟩
  · exact List.Pairwise.filter _ (localMaxima_sound (tr.map (fun t => 1 - t))).2
  · intro p hp
    rw [findMinima] at hp
    obtain ⟨hmem, hdec⟩ := List.mem_filter.mp hp
    obtain ⟨_, hplen, hloc⟩ := (localMaxima_sound (tr.map (fun t => 1 - t))).1 p hmem
    exact ⟨hloc, promAtLeast_of_threshold _ p τ (by omega) (of_decide_eq_true hdec)⟩
  · intro gs ppc name rows h
    exact annotateCurve_no_minima gs ppc τ name rows h

theorem claim_C9_witness :
    annotateCurve none 5 (1/1000) "b.csv" [(3, 1), (2, 1)] = [] :=
  (claim_C9 [] [] (1/1000)).2.2.2 none 5 "b.csv" [(3, 1), (2, 1)] (by decide)

/-- Claim C10: a structurally parseable file with zero valid numeric rows
does not halt the run: the empty curve passes through detection and
annotation with zero annotations, and the other curves are processed
normally. -/
theorem claim_C10 :
    (∀ wn τ, findMinima wn [] τ = []) ∧
    (∀ gs ppc prom name, annotateCurve gs ppc prom name [] = []) ∧
    (∀ (dir : String) (step prom : ℚ) (ppc : Int) (graw : String)
      (files : List (String × String)),
      trimChars dir.data ≠ [] → files ≠ [] → (∀ f ∈ files, readCsvAny f.2 ≠ none) →
      ∃ out, runProgram dir step prom ppc graw files = Except.ok out ∧
        out.rows = (out.curves.map (fun c =>
          annotateCurve (parseGuesses graw) ppc prom c.1 c.2)).flatten ∧
        ∀ c ∈ out.curves, c.2 = [] →
          annotateCurve (parseGuesses graw) ppc prom c.1 c.2 = []) := by
  refine ⟨fun wn τ => rfl, fun gs ppc prom name => annotateCurve_no_minima gs ppc prom name [] rfl,
    ?_⟩
  intro dir step prom ppc graw files h1 h2 h3
  rcases hl : loadCurves (sortCurves files) with e | curves
  · obtain ⟨q, hq, hqn⟩ := (loadCurves_error_iff (sortCurves files)).mp ⟨e, hl⟩
    rw [sortCurves_mem_iff] at hq
    exact absurd hqn (h3 q hq)
  · refine ⟨runOutputOf step prom ppc graw curves, ?_, rfl, ?_⟩
    · rw [runProgram, if_neg h1, if_neg h2, hl, exceptMap_ok]
    · intro c _ hc2
      rw [hc2]
      exact annotateCurve_no_minima _ _ _ _ [] rfl

theorem claim_C10_witness :
    ∃ out, runProgram "d" (7/40) (1/1000) 5 ""
        [("a.csv", "w,t\n3,0.8\n2,0.5\n1,0.9\n"), ("b.csv", "w,t\n")] = Except.ok out ∧
      out.rows = (out.curves.map (fun c =>
        annotateCurve (parseGuesses "") 5 (1/1000) c.1 c.2)).flatten ∧
      ∀ c ∈ out.curves, c.2 = [] → annotateCurve (parseGuesses "") 5 (1/1000) c.1 c.2 = [] :=
  claim_C10.2.2 "d" (7/40) (1/1000) 5 ""
    [("a.csv", "w,t\n3,0.8\n2,0.5\n1,0.9\n"), ("b.csv", "w,t\n")]
    (by decide) (by decide) (by decide)

/-- The shapes that may follow an encoded field: end of stream, a field
separator, or a record separator. -/
def SepRest (rest : List Char) : Prop :=
  rest = [] ∨ (∃ t, rest = ',' :: t) ∨ (∃ t, rest = '\n' :: t)

theorem scanU_run (f : List Char) : ∀ acc rest, (∀ c ∈ f, ¬(c = ',' ∨ c = '\n')) →
    SepRest rest → scanU acc (f ++ rest) = (acc ++ f, rest) := by
  induction f with
  | nil =>
    intro acc rest _ hr
    rcases hr with h | ⟨t, h⟩ | ⟨t, h⟩ <;> subst h
    · simp [scanU]
    · rw [List.nil_append, scanU, if_pos (Or.inl rfl)]
      simp
    · rw [List.nil_append, scanU, if_pos (Or.inr rfl)]
      simp
  | cons c f2 ih =>
    intro acc rest hf hr
    rw [List.cons_append, scanU, if_neg (hf c (List.mem_cons_self c f2))]
    rw [ih (acc ++ [c]) rest (fun d hd => hf d (List.mem_cons_of_mem _ hd)) hr]
    simp

theorem scanQ_esc (f : List Char) : ∀ acc rest, SepRest rest →
    scanQ acc (escQuotes f ++ '"' :: rest) = some (acc ++ f, rest) := by
  induction f with
  | nil =>
    intro acc rest hr
    rw [show escQuotes [] = [] from rfl, List.nil_append]
    rcases hr with h | ⟨t, h⟩ | ⟨t, h⟩ <;> subst h
    · rw [scanQ.eq_2 _ _ (by intro t1 ht; cases ht)]
      simp
    · rw [scanQ.eq_2 _ _ (by intro t1 ht; simp at ht)]
      simp
    · rw [scanQ.eq_2 _ _ (by intro t1 ht; simp at ht)]
      simp
  | cons c f2 ih =>
    intro acc rest hr
    by_cases hc : c = '"'
    · subst hc
      rw [show escQuotes ('"' :: f2) = '"' :: '"' :: escQuotes f2 from by
        rw [escQuotes, if_pos rfl]]
      rw [List.cons_append, List.cons_append, scanQ.eq_1]
      rw [ih (acc ++ ['"']) rest hr]
      simp
    · rw [show escQuotes (c :: f2) = c :: escQuotes f2 from by rw [escQuotes, if_neg hc]]
      rw [List.cons_append]
      rw [scanQ.eq_3 _ _ _ (by intro t1 h1 _; exact hc h1) (fun h => hc h)]
      rw [ih (acc ++ [c]) rest hr]
      simp

theorem parseOneField_enc (s : String) (rest : List Char) (hr : SepRest rest) :
    parseOneField (encodeField s ++ rest) = some (s.data, rest) := by
  rw [encodeField]
  by_cases hs : hasSpecial s.data
  · rw [if_pos hs]
    rw [List.cons_append, List.append_assoc]
    rw [show ['"'] ++ rest = '"' :: rest from rfl]
    rw [parseOneField.eq_1, scanQ_esc s.data [] rest hr]
    simp
  · rw [if_neg hs]
    have hnospec : ∀ c ∈ s.data, ¬(c = ',' ∨ c = '"' ∨ c = '\n') := by
      intro c hc
      simp only [hasSpecial, List.any_eq_true, Bool.or_eq_true, decide_eq_true_eq] at hs
      push_neg at hs
      have := hs c hc
      tauto
    have hnosep : ∀ c ∈ s.data, ¬(c = ',' ∨ c = '\n') := by
      intro c hc h
      exact hnospec c hc (by tauto)
    have hne : ∀ t1, s.data ++ rest = '"' :: t1 → False := by
      intro t1 ht
      cases hd : s.data with
      | nil =>
        rw [hd, List.nil_append] at ht
        rcases hr with h | ⟨t, h⟩ | ⟨t, h⟩ <;> subst h <;> simp at ht
      | cons c t2 =>
        rw [hd, List.cons_append] at ht
        rw [List.cons.injEq] at ht
        have := hnospec c (by rw [hd]; exact List.mem_cons_self _ _)
        exact this (Or.inr (Or.inl ht.1))
    rw [parseOneField.eq_2 _ hne]
    rw [scanU_run s.data [] rest hnosep hr]
    simp

theorem sepJoin_len (l : List (List Char)) : l.length ≤ (sepJoin [','] l).length + 1 := by
  induction l with
  | nil => simp [sepJoin]
  | cons x t ih =>
    cases t with
    | nil => simp [sepJoin]
    | cons y t2 =>
      rw [sepJoin]
      simp only [List.length_cons, List.length_append]
      simp only [List.length_cons] at ih
      omega

theorem recordChars_len (fields : List String) :
    fields.length ≤ (recordChars fields).length + 1 := by
  have := sepJoin_len (fields.map encodeField)
  rw [List.length_map] at this
  exact this

theorem parseRecordAux_enc : ∀ (fields : List String) (fu : Nat) (r2 : List Char),
    fields ≠ [] → fields.length ≤ fu →
    parseRecordAux fu (recordChars fields ++ '\n' :: r2) =
      some (fields.map (fun s => s.data), r2) := by
  intro fields
  induction fields with
  | nil => intro fu r2 h _; exact absurd rfl h
  | cons s fs ih =>
    intro fu r2 _ hlen
    cases fu with
    | zero => simp at hlen
    | succ f =>
      cases fs with
      | nil =>
        rw [show recordChars [s] = encodeField s from rfl]
        rw [parseRecordAux.eq_def]
        simp only [parseOneField_enc s ('\n' :: r2) (Or.inr (Or.inr ⟨r2, rfl⟩))]
        simp
      | cons s2 fs2 =>
        have hrc : recordChars (s :: s2 :: fs2) =
            encodeField s ++ ',' :: recordChars (s2 :: fs2) := by
          rw [recordChars, recordChars]
          simp only [List.map_cons]
          rw [sepJoin]
          rw [List.append_assoc]
          rfl
        rw [hrc, List.append_assoc]
        rw [show (',' :: recordChars (s2 :: fs2)) ++ '\n' :: r2 =
          ',' :: (recordChars (s2 :: fs2) ++ '\n' :: r2) from rfl]
        rw [parseRecordAux.eq_def]
        simp only [parseOneField_enc s (',' :: (recordChars (s2 :: fs2) ++ '\n' :: r2))
          (Or.inr (Or.inl ⟨_, rfl⟩))]
        simp only [ih f r2 (by simp) (by simp at hlen ⊢; omega)]
        simp

theorem flatten_len_ge : ∀ L : List (List Char), (∀ x ∈ L, 1 ≤ x.length) →
    L.length ≤ L.flatten.length := by
  intro L
  induction L with
  | nil => simp
  | cons x t ih =>
    intro h
    rw [List.flatten_cons, List.length_append, List.length_cons]
    have h1 := h x (List.mem_cons_self _ _)
    have h2 := ih (fun y hy => h y (List.mem_cons_of_mem _ hy))
    omega

theorem parseRecordsAux_enc : ∀ (recs : List (List String)) (fu : Nat),
    (∀ r ∈ recs, r ≠ []) → recs.length ≤ fu →
    parseRecordsAux fu ((recs.map (fun fs => recordChars fs ++ ['\n'])).flatten) =
      some (recs.map (fun fs => fs.map (fun s => s.data))) := by
  intro recs
  induction recs with
  | nil =>
    intro fu _ _
    rw [show (([] : List (List String)).map (fun fs => recordChars fs ++ ['\n'])).flatten =
      [] from rfl]
    exact parseRecordsAux.eq_1 fu
  | cons fs rest ih =>
    intro fu hne hlen
    cases fu with
    | zero => simp at hlen
    | succ f =>
      have hstream : (((fs :: rest).map (fun r => recordChars r ++ ['\n'])).flatten) =
          recordChars fs ++ '\n' :: ((rest.map (fun r => recordChars r ++ ['\n'])).flatten) := by
        rw [List.map_cons, List.flatten_cons, List.append_assoc]
        rfl
      rw [hstream]
      have hnenil : recordChars fs ++ '\n' ::
          ((rest.map (fun r => recordChars r ++ ['\n'])).flatten) = [] → False := by
        intro h
        cases hrc : recordChars fs with
        | nil => rw [hrc, List.nil_append] at h; cases h
        | cons a b => rw [hrc, List.cons_append] at h; cases h
      rw [parseRecordsAux.eq_3 _ f hnenil]
      have hfuel : fs.length ≤ (recordChars fs ++ '\n' ::
          ((rest.map (fun r => recordChars r ++ ['\n'])).flatten)).length + 1 := by
        have h1 := recordChars_len fs
        rw [List.length_append]
        omega
      simp only [parseRecordAux_enc fs _ _ (hne fs (List.mem_cons_self _ _)) hfuel]
      simp only [ih f (fun r hr => hne r (List.mem_cons_of_mem _ hr)) (by
        simp only [List.length_cons] at hlen
        omega)]
      simp

theorem printNum_data_ne_nil (q : ℚ) : (printNum q).data ≠ [] := by
  obtain ⟨d, t, _, hpc⟩ := printChars_cons (q.num.natAbs * (10 ^ pow10Exp q.den / q.den))
    (pow10Exp q.den)
  rw [printNum]
  by_cases hneg : q.num < 0
  · rw [if_pos hneg]
    simp
  · rw [if_neg hneg]
    rw [show (String.mk (printChars (q.num.natAbs * (10 ^ pow10Exp q.den / q.den))
      (pow10Exp q.den))).data = printChars (q.num.natAbs * (10 ^ pow10Exp q.den / q.den))
      (pow10Exp q.den) from rfl, hpc]
    simp

/-- All numeric fields of a row are decimal rationals. -/
def RowDecimal (r : Row) : Prop :=
  DecimalRat r.peak ∧ DecimalRat r.tr ∧ ∀ g, r.guess = some g → DecimalRat g

theorem decodeRow_enc (r : Row) (h : RowDecimal r) :
    decodeRow ((rowFields r).map (fun s => s.data)) = some r := by
  obtain ⟨rf, rm, rg, rp, rt⟩ := r
  obtain ⟨hdp, hdt, hdg⟩ := h
  simp only [Row.peak] at hdp
  simp only [Row.tr] at hdt
  simp only [Row.guess] at hdg
  rw [show (rowFields ⟨rf, rm, rg, rp, rt⟩).map (fun s => s.data) =
    [rf.data, rm.data, (rg.elim "" (fun g => printNum g)).data,
      (printNum rp).data, (printNum rt).data] from rfl]
  rw [decodeRow]
  rw [show String.mk (printNum rp).data = printNum rp from rfl]
  rw [show String.mk (printNum rt).data = printNum rt from rfl]
  rw [parseNum_printNum rp hdp, Option.some_bind, parseNum_printNum rt hdt, Option.some_bind]
  cases rg with
  | none =>
    rw [show (Option.elim (none : Option ℚ) "" (fun g => printNum g)).data = [] from rfl]
    rw [if_pos rfl]
  | some g =>
    rw [show (Option.elim (some g) "" (fun g => printNum g)).data = (printNum g).data from rfl]
    rw [if_neg (printNum_data_ne_nil g)]
    rw [show String.mk (printNum g).data = printNum g from rfl]
    rw [parseNum_printNum g (hdg g rfl), Option.map_some']

theorem rowsDecode_enc : ∀ rows : List Row, (∀ r ∈ rows, RowDecimal r) →
    rowsDecode (rows.map (fun r => (rowFields r).map (fun s => s.data))) = some rows := by
  intro rows
  induction rows with
  | nil => intro _; rfl
  | cons r t ih =>
    intro h
    rw [List.map_cons, rowsDecode]
    rw [decodeRow_enc r (h r (List.mem_cons_self _ _)), Option.some_bind]
    rw [ih (fun x hx => h x (List.mem_cons_of_mem _ hx)), Option.map_some']

theorem rowFields_ne_nil (r : Row) : rowFields r ≠ [] := by
  rw [rowFields]
  simp

theorem readSummary_writeSummary (rows : List Row) (h : ∀ r ∈ rows, RowDecimal r) :
    readSummary (writeSummary rows) = some rows := by
  rw [readSummary]
  rw [show (writeSummary rows).data =
    (((headerFields :: rows.map rowFields).map (fun fs => recordChars fs ++ ['\n'])).flatten)
    from rfl]
  have hne : ∀ rec ∈ headerFields :: rows.map rowFields, rec ≠ [] := by
    intro rec hrec
    rcases List.mem_cons.mp hrec with h1 | h1
    · subst h1
      rw [headerFields]
      simp
    · obtain ⟨r, _, hr⟩ := List.mem_map.mp h1
      rw [← hr]
      exact rowFields_ne_nil r
  have hfuel : (headerFields :: rows.map rowFields).length ≤
      ((((headerFields :: rows.map rowFields)).map
        (fun fs => recordChars fs ++ ['\n'])).flatten).length + 1 := by
    have h1 := flatten_len_ge (((headerFields :: rows.map rowFields)).map
      (fun fs => recordChars fs ++ ['\n'])) (by
        intro x hx
        obtain ⟨fs, _, hfs⟩ := List.mem_map.mp hx
        rw [← hfs, List.length_append]
        simp)
    rw [List.length_map] at h1
    omega
  rw [parseRecordsAux_enc (headerFields :: rows.map rowFields) _ hne hfuel]
  rw [Option.some_bind]
  rw [List.map_cons]
  have hmm : (rows.map rowFields).map (fun fs => fs.map (fun s => s.data)) =
      rows.map (fun r => (rowFields r).map (fun s => s.data)) := by
    rw [List.map_map]
    rfl
  rw [show (match (headerFields.map (fun s => s.data)) ::
      ((rows.map rowFields).map (fun fs => fs.map (fun s => s.data))) with
    | [] => none
    | h :: rest =>
      if h = headerFields.map (fun fld => fld.data) then rowsDecode rest else none) =
    (if (headerFields.map (fun s => s.data)) = headerFields.map (fun fld => fld.data) then
      rowsDecode ((rows.map rowFields).map (fun fs => fs.map (fun s => s.data))) else none)
    from rfl]
  rw [if_pos rfl, hmm]
  exact rowsDecode_enc rows h

theorem curveWn_decimal (rows : List (ℚ × ℚ)) (h : ∀ p ∈ rows, DecimalRat p.1 ∧ DecimalRat p.2) :
    ∀ v ∈ curveWn rows, DecimalRat v := by
  intro v hv
  obtain ⟨p, hp, hpe⟩ := List.mem_map.mp hv
  exact hpe ▸ (h p hp).1

theorem curveTr_decimal (rows : List (ℚ × ℚ)) (h : ∀ p ∈ rows, DecimalRat p.1 ∧ DecimalRat p.2) :
    ∀ v ∈ curveTr rows, DecimalRat v := by
  intro v hv
  obtain ⟨p, hp, hpe⟩ := List.mem_map.mp hv
  exact hpe ▸ (h p hp).2

theorem annotateCurve_decimal (gs : Option (List ℚ)) (ppc : Int) (prom : ℚ) (name : String)
    (rows : List (ℚ × ℚ)) (hrows : ∀ p ∈ rows, DecimalRat p.1 ∧ DecimalRat p.2)
    (hgs : ∀ gl, gs = some gl → ∀ g ∈ gl, DecimalRat g) :
    ∀ r ∈ annotateCurve gs ppc prom name rows, RowDecimal r := by
  intro r hr
  have hwn := curveWn_decimal rows hrows
  have htr := curveTr_decimal rows hrows
  cases gs with
  | some gl =>
    rw [annotateCurve] at hr
    obtain ⟨g, hg, hge⟩ := List.mem_filterMap.mp hr
    by_cases hpk : findMinima (curveWn rows) (curveTr rows) prom = []
    · rw [if_pos hpk] at hge
      exact absurd hge (by simp)
    · rw [if_neg hpk, Option.some_inj] at hge
      subst hge
      exact ⟨getD_decimal hwn _, getD_decimal htr _,
        fun g2 hg2 => by
          rw [show (guessRow name (curveWn rows) (curveTr rows)
            (findMinima (curveWn rows) (curveTr rows) prom) g).guess = some g from rfl,
            Option.some_inj] at hg2
          exact hg2 ▸ hgs gl rfl g hg⟩
  | none =>
    rw [annotateCurve] at hr
    by_cases hc : findMinima (curveWn rows) (curveTr rows) prom ≠ [] ∧ 0 < ppc
    · rw [if_pos hc] at hr
      obtain ⟨oi, _, hoe⟩ := List.mem_map.mp hr
      subst hoe
      exact ⟨getD_decimal hwn _, getD_decimal htr _, fun g2 hg2 => by
        rw [show (autoRow name (curveWn rows) (curveTr rows)
          (findMinima (curveWn rows) (curveTr rows) prom) oi).guess = none from rfl] at hg2
        cases hg2⟩
    · rw [if_neg hc] at hr
      cases hr

theorem run_rows_decimal {dir : String} {step prom : ℚ} {ppc : Int} {graw : String}
    {files : List (String × String)} {out : RunOutput}
    (h : runProgram dir step prom ppc graw files = Except.ok out) :
    ∀ r ∈ out.rows, RowDecimal r := by
  obtain ⟨_, _, curves, hl, _, _, hrows, _⟩ := runProgram_ok_inv h
  intro r hr
  rw [hrows] at hr
  obtain ⟨block, hb, hrb⟩ := List.mem_flatten.mp hr
  obtain ⟨c, hc, hce⟩ := List.mem_map.mp hb
  obtain ⟨_, hmem⟩ := loadCurves_ok_spec _ curves hl
  obtain ⟨content, rows0, _, hread, hceq⟩ := hmem c hc
  subst hce
  refine annotateCurve_decimal _ ppc prom c.1 c.2 ?_ ?_ r hrb
  · intro p hp
    rw [hceq] at hp
    exact readCsvAny_decimal hread p ((sortRows_perm rows0).subset hp)
  · intro gl hgl g hg
    exact parseGuesses_decimal hgl g hg

/-- Claim C8: every run that produces at least one annotation writes the
summary file, and reading that file back yields exactly the produced
sequence of (file, mode, guess, peak, transmittance) records, in order. -/
theorem claim_C8 (dir : String) (step prom : ℚ) (ppc : Int) (graw : String)
    (files : List (String × String)) (out : RunOutput)
    (h : runProgram dir step prom ppc graw files = Except.ok out) (hne : out.rows ≠ []) :
    out.summary = some (writeSummary out.rows) ∧
    readSummary (writeSummary out.rows) = some out.rows := by
  obtain ⟨_, _, curves, _, _, _, hrows, hsum⟩ := runProgram_ok_inv h
  constructor
  · rw [hsum, ← hrows, if_neg hne, hrows]
  · exact readSummary_writeSummary out.rows (run_rows_decimal h)

theorem claim_C8_witness :
    witnessOut.summary = some (writeSummary witnessOut.rows) ∧
    readSummary (writeSummary witnessOut.rows) = some witnessOut.rows :=
  claim_C8 "d" (7/40) (1/1000) 5 "" witnessFiles witnessOut (by decide) (by decide)

end Ftir
